import Mathlib

/-!
# Verification of the NextNode http-client caching & resilience engine

Shallow embedding, in Lean 4, of the core components of the http-client
repository: the glob pattern matcher (`src/utils/pattern.ts`), the tag
registry (`src/lib/cache/tag-registry.ts`), the LRU/TTL cache
(`lib/cache/lru-cache`), the cache-key generator
(`src/lib/cache/cache-key.ts`), the Cache-Control parser
(`lib/cache/cache-control`), the backoff calculator and retry strategy
(`src/lib/retry/backoff.ts`, `lib/retry/strategy`), the request
deduplicator (`lib/cache/deduplicator`) and the `CircuitBreaker` class
(`lib/fetch/retry`).

Strings are modelled as Lean `String`/`List Char`; JavaScript numbers as
`Int`/`Nat`/`Rat` where exact; `Date.now()` and `Math.random()` become
explicit parameters; promises become explicit transition systems.
-/

namespace HttpClient

/-! ## Pattern matcher (`src/utils/pattern.ts`)

`matchRecursive(pattern, patternStart, value, valueStart)` walks both
strings with two indices; we embed the suffixes themselves as lists.
The `*` branch of the source skips consecutive stars, succeeds if the
pattern is exhausted, and otherwise tries every value offset in
increasing order; `matchStar` below is that inner `while (vIdx <= vLen)`
loop, expressed as an ordered disjunction over value suffixes. -/

mutual

def matchRec : List Char → List Char → Bool
  | [], v => v.isEmpty
  | c :: p, v =>
    if c = '*' then
      -- skip consecutive stars; a trailing star matches everything
      let p2 := p.dropWhile (fun x => x = '*')
      if p2.isEmpty then true else matchStar p2 v
    else
      match v with
      | [] => false
      | x :: v2 => if c = '?' then matchRec p v2 else (c == x) && matchRec p v2
termination_by p v => 2 * (p.length + v.length)
decreasing_by
  all_goals simp_wf
  all_goals try omega
  all_goals (have h : (p.dropWhile (fun x => decide (x = '*'))).length ≤ p.length :=
    (List.dropWhile_suffix _).length_le; omega)

def matchStar : List Char → List Char → Bool
  | p, [] => matchRec p []
  | p, x :: v => matchRec p (x :: v) || matchStar p v
termination_by p v => 2 * (p.length + v.length) + 1

end

/-- `MAX_PATTERN_LENGTH` from `src/utils/pattern.ts`. -/
def MAX_PATTERN_LENGTH : Nat := 100

/-- JavaScript `string.length` counts UTF-16 code units: characters
beyond the Basic Multilingual Plane occupy a surrogate pair. -/
def utf16Len : List Char → Nat
  | [] => 0
  | c :: rest => (if c.toNat < 65536 then 1 else 2) + utf16Len rest

/-- `matchGlobPattern(pattern, value)` from `src/utils/pattern.ts`:
length cap (on `pattern.length`, i.e. UTF-16 units), exact-match fast
path for wildcard-free patterns, then the recursive matcher. -/
def matchGlobPattern (pattern value : String) : Bool :=
  if utf16Len pattern.data > MAX_PATTERN_LENGTH then false
  else if !(pattern.data.contains '*') && !(pattern.data.contains '?') then
    pattern == value
  else
    matchRec pattern.data value.data

/-! ## Regex-based matcher of `getKeysByPattern`
(`src/lib/cache/tag-registry.ts`)

The source escapes every regex metacharacter except `*` and `?`, turns
`*` into `.*` and `?` into `.`, anchors with `^...$`, and calls
`RegExp.test`.  Semantically the produced regex is a sequence of three
kinds of atoms; `.` in a JavaScript regex (without the `s` flag) matches
any character except an ECMA-262 *LineTerminator*: LF, CR, LINE
SEPARATOR (U+2028) or PARAGRAPH SEPARATOR (U+2029). -/

/-- The ECMA-262 *LineTerminator* set refused by regex `.`. -/
def isLineTerminator (c : Char) : Bool :=
  c = '\n' || c = '\r' || c = '\u2028' || c = '\u2029'

inductive RegexAtom where
  | lit (c : Char)
  | anyChar
  | anyStar
deriving DecidableEq, Repr

/-- The glob-to-regex translation of `getKeysByPattern`: escaping keeps
every non-wildcard character a literal; `*` and `?` become `.*`/`.`. -/
def globToRegex (p : List Char) : List RegexAtom :=
  p.map (fun c => if c = '*' then .anyStar else if c = '?' then .anyChar else .lit c)

mutual

/-- Acceptance of the anchored regex produced by `getKeysByPattern`
(backtracking search, equivalent to `RegExp.test` on this regex class). -/
def reAccepts : List RegexAtom → List Char → Bool
  | [], v => v.isEmpty
  | .lit c :: r, v =>
    match v with
    | [] => false
    | x :: v2 => (x == c) && reAccepts r v2
  | .anyChar :: r, v =>
    match v with
    | [] => false
    | x :: v2 => (!isLineTerminator x) && reAccepts r v2
  | .anyStar :: r, v => reStar r v
termination_by r v => (r.length, v.length, 1)

/-- `.*` consumes a (possibly empty) prefix of non-line-terminator
characters. -/
def reStar : List RegexAtom → List Char → Bool
  | r, [] => reAccepts r []
  | r, x :: v => reAccepts r (x :: v) || ((!isLineTerminator x) && reStar r v)
termination_by r v => (r.length, v.length, 2)

end

/-! ## Tag registry (`src/lib/cache/tag-registry.ts`)

JavaScript `Map` and `Set` iterate in insertion order; we model them as
association lists / lists without duplicates, where `set`/`add` of an
existing key keeps its position and a new key is appended at the end. -/

/-- `Map.get` on an association list. -/
def alookup [DecidableEq κ] (l : List (κ × α)) (k : κ) : Option α :=
  match l with
  | [] => none
  | (k1, v1) :: rest => if k1 = k then some v1 else alookup rest k

/-- `Map.get(k) ?? d`. -/
def alookupD [DecidableEq κ] (l : List (κ × α)) (k : κ) (d : α) : α :=
  (alookup l k).getD d

/-- `Map.set`: replace in place when the key exists, append otherwise. -/
def aset [DecidableEq κ] (l : List (κ × α)) (k : κ) (v : α) : List (κ × α) :=
  match l with
  | [] => [(k, v)]
  | (k1, v1) :: rest => if k1 = k then (k1, v) :: rest else (k1, v1) :: aset rest k v

/-- `Map.delete` / `Set.delete`: remove the binding for `k` if present. -/
def adel [DecidableEq κ] (l : List (κ × α)) (k : κ) : List (κ × α) :=
  match l with
  | [] => []
  | (k1, v1) :: rest => if k1 = k then rest else (k1, v1) :: adel rest k

/-- `Set.add`: append if absent, keep position otherwise. -/
def setAdd (l : List String) (a : String) : List String :=
  if a ∈ l then l else l ++ [a]

/-- State of `createTagRegistry`: `tagToKeys`, `keyToTags`, `allKeys`. -/
structure TagRegistry where
  tagToKeys : List (String × List String)
  keyToTags : List (String × List String)
  allKeys : List String
deriving Repr, DecidableEq

def TagRegistry.empty : TagRegistry := ⟨[], [], []⟩

/-- `register(key, tags)`: no-op for an empty tag list; otherwise adds the
key to `allKeys`, to each tag's key set, and the tags to the key's tag set. -/
def TagRegistry.register (reg : TagRegistry) (key : String)
    (tags : List String) : TagRegistry :=
  if tags.isEmpty then reg
  else
    let allKeys := setAdd reg.allKeys key
    let init : List (String × List String) × List String :=
      (reg.tagToKeys, alookupD reg.keyToTags key [])
    let fin := tags.foldl
      (fun acc tag =>
        (aset acc.1 tag (setAdd (alookupD acc.1 tag []) key), setAdd acc.2 tag))
      init
    { tagToKeys := fin.1
      keyToTags := aset reg.keyToTags key fin.2
      allKeys := allKeys }

/-- `unregister(key)`: remove the key from every tag set it belongs to
(pruning empty tag sets), then drop its own tag set and `allKeys` entry. -/
def TagRegistry.unregister (reg : TagRegistry) (key : String) : TagRegistry :=
  match alookup reg.keyToTags key with
  | none => reg
  | some tags =>
    let t2k := tags.foldl
      (fun acc tag =>
        match alookup acc tag with
        | none => acc
        | some keysForTag =>
          let keysForTag := keysForTag.erase key
          if keysForTag.isEmpty then adel acc tag else aset acc tag keysForTag)
      reg.tagToKeys
    { tagToKeys := t2k
      keyToTags := adel reg.keyToTags key
      allKeys := reg.allKeys.erase key }

/-- `getKeysByTag(tag)`: O(1) set lookup, empty when unknown. -/
def TagRegistry.getKeysByTag (reg : TagRegistry) (tag : String) : List String :=
  alookupD reg.tagToKeys tag []

/-- `getKeysByPattern(pattern)`: builds the anchored regex described by
`globToRegex` and keeps every registered key accepted by it. -/
def TagRegistry.getKeysByPattern (reg : TagRegistry) (pattern : String) :
    List String :=
  reg.allKeys.filter (fun k => reAccepts (globToRegex pattern.data) k.data)

/-- `clear()`: resets all three indices. -/
def TagRegistry.clear (_reg : TagRegistry) : TagRegistry := TagRegistry.empty

/-! ## Result types (`src/types/result.ts`) -/

inductive ErrorCode where
  | NETWORK_ERROR | TIMEOUT_ERROR | ABORT_ERROR | PARSE_ERROR
  | VALIDATION_ERROR | CLIENT_ERROR | SERVER_ERROR | UNKNOWN_ERROR
deriving DecidableEq, Repr

/-- `HttpError`: the fields the cache/retry core inspects. -/
structure HttpError where
  code : ErrorCode
  status : Option Int := none
deriving DecidableEq, Repr

inductive CacheHit where
  | fresh | stale | miss
deriving DecidableEq, Repr

/-- `ResponseMeta`: the fields the cache core reads or writes. -/
structure ResponseMeta where
  status : Int
  cached : Bool := false
  cacheHit : Option CacheHit := none
deriving DecidableEq, Repr

/-- `HttpResult<T>`: discriminated success/failure union. -/
inductive HttpResult (T : Type) where
  | success (data : T) (response : ResponseMeta)
  | failure (error : HttpError) (response : Option ResponseMeta := none)
deriving DecidableEq, Repr

def HttpResult.isSuccess : HttpResult T → Bool
  | .success _ _ => true
  | .failure _ _ => false

/-! ## LRU/TTL cache (`lib/cache/lru-cache`, `src/unnamed/part_006`)

A JavaScript `Map` preserves insertion order, `Map.set` of an existing
key keeps its position, and `Map.delete`+`Map.set` moves a key to the
end; the map is modelled as an association list whose head is the
oldest (first-inserted) binding.  `Date.now()` is an explicit `now`
parameter and the injected `keyGenerator` is abstracted away: the
operations take the generated cache key directly. -/

structure CacheEntry (T : Type) where
  data : HttpResult T
  timestamp : Int
  ttl : Int
  staleUntil : Int
  etag : Option String := none
  lastModified : Option String := none
  tags : List String := []
deriving DecidableEq, Repr

/-- Resolved `CacheConfig` values (`maxEntries ?? 100`, `ttl ?? 60000`,
`staleWhileRevalidate ?? 0`). -/
structure LRUConfig where
  maxEntries : Nat := 100
  ttl : Int := 60000
  staleWhileRevalidate : Int := 0
deriving DecidableEq, Repr

structure LRUState (T : Type) where
  entries : List (String × CacheEntry T) := []
  hits : Nat := 0
  misses : Nat := 0
  staleHits : Nat := 0
  evictions : Nat := 0
deriving DecidableEq, Repr

/-- `updateResponseMeta(result, cacheHit)`. -/
def updateResponseMeta (result : HttpResult T) (hit : CacheHit) : HttpResult T :=
  match result with
  | .failure e r => .failure e r
  | .success d m => .success d { m with cached := true, cacheHit := some hit }

/-- `get(request)` of `createLRUCache`, returning the result and the
updated cache state. -/
def lruGet (s : LRUState T) (key : String) (now : Int) :
    Option (HttpResult T) × LRUState T :=
  match alookup s.entries key with
  | none => (none, { s with misses := s.misses + 1 })
  | some entry =>
    -- completely expired (beyond the stale window)
    if now > entry.staleUntil then
      (none, { s with entries := adel s.entries key, misses := s.misses + 1 })
    else
      -- move to the end (most recently used)
      let entries := adel s.entries key ++ [(key, entry)]
      if now ≤ entry.timestamp + entry.ttl then
        (some (updateResponseMeta entry.data .fresh),
          { s with entries := entries, hits := s.hits + 1 })
      else
        (some (updateResponseMeta entry.data .stale),
          { s with entries := entries, staleHits := s.staleHits + 1 })

/-- `CacheSetOptions`. -/
structure CacheSetOptions where
  ttl : Option Int := none
  tags : Option (List String) := none
  etag : Option String := none
  lastModified : Option String := none
deriving DecidableEq, Repr

/-- JavaScript truthiness of an optional string (`opts?.etag && ...`):
`undefined` and the empty string are falsy. -/
def truthyStr : Option String → Option String
  | none => none
  | some s => if s = "" then none else some s

/-- `set(request, result, options?)` of `createLRUCache`.  The capacity
check runs before the insert and looks only at the current first key;
`if (firstKey)` makes the empty-string key falsy, skipping eviction. -/
def lruSet (cfg : LRUConfig) (s : LRUState T) (key : String)
    (result : HttpResult T) (now : Int) (options : CacheSetOptions) :
    LRUState T :=
  match result with
  | .failure _ _ => s
  | .success _ _ =>
    let s1 :=
      if s.entries.length ≥ cfg.maxEntries then
        match s.entries.head? with
        | some (firstKey, _) =>
          if firstKey ≠ "" then
            { s with entries := adel s.entries firstKey,
                     evictions := s.evictions + 1 }
          else s
        | none => s
      else s
    let entryTtl := options.ttl.getD cfg.ttl
    let entry : CacheEntry T :=
      { data := result
        timestamp := now
        ttl := entryTtl
        staleUntil := now + entryTtl + cfg.staleWhileRevalidate
        etag := truthyStr options.etag
        lastModified := truthyStr options.lastModified
        tags := match options.tags with
          | some ts => if ts.isEmpty then [] else ts
          | none => [] }
    { s1 with entries := aset s1.entries key entry }

/-- `delete(request)`. -/
def lruDelete (s : LRUState T) (key : String) : Bool × LRUState T :=
  ((alookup s.entries key).isSome, { s with entries := adel s.entries key })

/-- `has(request)`: also performs hard-expiry cleanup. -/
def lruHas (s : LRUState T) (key : String) (now : Int) : Bool × LRUState T :=
  match alookup s.entries key with
  | none => (false, s)
  | some entry =>
    if now > entry.staleUntil then
      (false, { s with entries := adel s.entries key })
    else (true, s)

/-- `isStale(request)`. -/
def lruIsStale (s : LRUState T) (key : String) (now : Int) : Bool :=
  match alookup s.entries key with
  | none => true
  | some entry => !(now ≤ entry.timestamp + entry.ttl)

/-- `set` folded over a list of `(key, now)` insertions sharing one
result and default options (the C2 insertion scenario). -/
def lruSetMany (cfg : LRUConfig) (s : LRUState T)
    (items : List (String × Int)) (result : HttpResult T) : LRUState T :=
  items.foldl (fun acc it => lruSet cfg acc it.1 result it.2 {}) s

/-! ## Cache key generation (`src/lib/cache/cache-key.ts`)

Query parameter values may be strings, numbers or booleans; they reach
the key only through `String(value)`, so non-null values are collapsed
to their string image.  `localeCompare` / the default `Array.sort`
comparator are modelled by code-unit lexicographic order on the
character lists (a deterministic total order, which is all the claims
rely on). -/

inductive QueryValue where
  | undef
  | nullv
  | strv (s : String)
deriving DecidableEq, Repr

/-- `value !== undefined && value !== null`. -/
def QueryValue.keep : QueryValue → Bool
  | .undef => false
  | .nullv => false
  | .strv _ => true

/-- `String(value)`. -/
def QueryValue.toStr : QueryValue → String
  | .undef => "undefined"
  | .nullv => "null"
  | .strv s => s

/-- Request identity consumed by the key generator (`RequestConfig`);
`params` and `headers` are JavaScript objects: association lists with
pairwise-distinct names, in enumeration order. -/
structure RequestConfig where
  method : String
  url : String
  params : Option (List (String × QueryValue)) := none
  headers : Option (List (String × String)) := none
deriving DecidableEq, Repr

/-- Code-unit lexicographic string comparison (JavaScript `<` on
strings / a deterministic stand-in for `localeCompare`). -/
def charListLe : List Char → List Char → Bool
  | [], _ => true
  | _ :: _, [] => false
  | a :: as, b :: bs => if a = b then charListLe as bs else decide (a < b)

def strLe (a b : String) : Bool := charListLe a.data b.data

/-- `String.prototype.toLowerCase()`, character-wise.  `Char.toLower`
maps only `A`–`Z`, which agrees with the Unicode lowering exactly on
ASCII strings; theorems relying on lowercasing therefore restrict their
inputs to ASCII (Unicode case mappings such as U+212A → `k` are outside
the model). -/
def jsToLower (s : String) : String := String.mk (s.data.map Char.toLower)

/-- Comparator of `.sort(([a], [b]) => a.localeCompare(b))`: order
param entries by name. -/
def paramLe (x y : String × QueryValue) : Prop := strLe x.1 y.1 = true

instance : DecidableRel paramLe := fun x y => by
  unfold paramLe; infer_instance

/-- Comparator of `varyParts.sort()`. -/
def strLeRel (x y : String) : Prop := strLe x y = true

instance : DecidableRel strLeRel := fun x y => by
  unfold strLeRel; infer_instance

/-- `Array.prototype.join(sep)`. -/
def jsJoin (sep : String) : List String → String
  | [] => ""
  | [x] => x
  | x :: y :: xs => x ++ sep ++ jsJoin sep (y :: xs)

/-- `generateCacheKey(config)`: method, URL, and the filtered,
name-sorted, `&`-joined params (pushed only when non-empty), joined
with `|`. -/
def generateCacheKey (config : RequestConfig) : String :=
  let parts := [config.method, config.url]
  let parts :=
    match config.params with
    | none => parts
    | some ps =>
      let sortedParams :=
        jsJoin "&"
          (((ps.filter (fun kv => kv.2.keep)).insertionSort paramLe).map
            (fun kv => kv.1 ++ "=" ++ kv.2.toStr))
      if sortedParams ≠ "" then parts ++ [sortedParams] else parts
  jsJoin "|" parts

/-- `config.headers?.[header] ?? config.headers?.[header.toLowerCase()] ?? ''`. -/
def headerValue (config : RequestConfig) (header : String) : String :=
  match config.headers with
  | none => ""
  | some hs =>
    ((alookup hs header).orElse (fun _ => alookup hs (jsToLower header))).getD ""

/-- `generateVaryAwareCacheKey(config, varyHeaders)`. -/
def generateVaryAwareCacheKey (config : RequestConfig)
    (varyHeaders : List String) : String :=
  let baseKey := generateCacheKey config
  if varyHeaders.isEmpty then baseKey
  else
    let varyParts := varyHeaders.map (fun h => h ++ ":" ++ headerValue config h)
    baseKey ++ "|vary[" ++ jsJoin "," (varyParts.insertionSort strLeRel) ++ "]"

/-! ## Backoff calculator (`src/lib/retry/backoff.ts`)

JavaScript numbers are modelled as exact rationals (all values in the
claims are exactly representable doubles); `Math.random()` becomes the
explicit parameter `rand ∈ [0,1]`; `Math.round(x) = ⌊x + 1/2⌋`. -/

def jsRound (x : ℚ) : ℤ := ⌊x + 1 / 2⌋

/-- `calculateBackoff(attempt, baseDelay, maxDelay, jitter)`. -/
def calculateBackoff (attempt : ℕ) (baseDelay maxDelay jitter : ℚ)
    (rand : ℚ) : ℤ :=
  let exponentialDelay := baseDelay * 2 ^ attempt
  let cappedDelay := min exponentialDelay maxDelay
  let jitterRange := cappedDelay * jitter
  let jitterOffset := (rand * 2 - 1) * jitterRange
  jsRound (cappedDelay + jitterOffset)

/-! ## Cache-Control parser (`lib/cache/cache-control`, `src/unnamed/part_007`) -/

structure CacheControlDirectives where
  noStore : Bool := false
  noCache : Bool := false
  maxAge : Option Int := none
  sMaxAge : Option Int := none
  «private» : Bool := false
  «public» : Bool := false
  mustRevalidate : Bool := false
  immutable : Bool := false
deriving DecidableEq, Repr

def DEFAULT_DIRECTIVES : CacheControlDirectives := {}

/-- Value of the maximal decimal-digit prefix, if any. -/
def digitsPrefixVal (l : List Char) : Option Nat :=
  let ds := l.takeWhile (fun c => c.isDigit)
  if ds.isEmpty then none
  else some (ds.foldl (fun acc c => acc * 10 + (c.toNat - '0'.toNat)) 0)

/-- ECMA-262 *WhiteSpace* ∪ *LineTerminator*: TAB, LF, VT, FF, CR,
space, NBSP, OGHAM SPACE MARK, EN QUAD … HAIR SPACE, LS, PS,
NARROW NBSP, MEDIUM MATHEMATICAL SPACE, IDEOGRAPHIC SPACE, BOM — the
set skipped by `Number.parseInt` and stripped by
`String.prototype.trim`. -/
def jsIsWhitespace (c : Char) : Bool :=
  c.toNat = 9 || c.toNat = 10 || c.toNat = 11 || c.toNat = 12
  || c.toNat = 13 || c.toNat = 32 || c.toNat = 160 || c.toNat = 5760
  || (8192 ≤ c.toNat && c.toNat ≤ 8202)
  || c.toNat = 8232 || c.toNat = 8233 || c.toNat = 8239 || c.toNat = 8287
  || c.toNat = 12288 || c.toNat = 65279

/-- `Number.parseInt(s, 10)`: skip leading whitespace, optional sign,
then the maximal digit prefix; `NaN` (here `none`) when no digit
follows. -/
def jsParseIntDec (s : String) : Option Int :=
  match s.data.dropWhile jsIsWhitespace with
  | '-' :: rest => (digitsPrefixVal rest).map (fun n => -(n : Int))
  | '+' :: rest => (digitsPrefixVal rest).map (fun n => (n : Int))
  | rest => (digitsPrefixVal rest).map (fun n => (n : Int))

/-- Worker of `jsSplit`: `acc` holds the current field, reversed. -/
def jsSplitGo (sep : Char) : List Char → List Char → List String
  | [], acc => [String.mk acc.reverse]
  | c :: rest, acc =>
    if c = sep then String.mk acc.reverse :: jsSplitGo sep rest []
    else jsSplitGo sep rest (c :: acc)

/-- `String.prototype.split(sep)` for a one-character separator. -/
def jsSplit (sep : Char) (s : String) : List String :=
  jsSplitGo sep s.data []

/-- `String.prototype.trim()`. -/
def jsTrim (s : String) : String :=
  String.mk (((s.data.dropWhile jsIsWhitespace).reverse.dropWhile
    jsIsWhitespace).reverse)

/-- `String.prototype.slice(n)` for a nonnegative start. -/
def jsSlice (s : String) (n : Nat) : String := String.mk (s.data.drop n)

/-- `String.prototype.startsWith(pre)`. -/
def jsStartsWith (s pre : String) : Bool := pre.data.isPrefixOf s.data

/-- Processing of one comma-separated part of the header; the
accumulator carries the directives record and the pending
`maxAge`/`sMaxAge` values. -/
def cacheControlStep (acc : CacheControlDirectives × Option Int × Option Int)
    (part : String) : CacheControlDirectives × Option Int × Option Int :=
  let trimmed := jsTrim part
  if trimmed = "no-store" then ({ acc.1 with noStore := true }, acc.2)
  else if trimmed = "no-cache" then ({ acc.1 with noCache := true }, acc.2)
  else if trimmed = "private" then ({ acc.1 with «private» := true }, acc.2)
  else if trimmed = "public" then ({ acc.1 with «public» := true }, acc.2)
  else if trimmed = "must-revalidate" then
    ({ acc.1 with mustRevalidate := true }, acc.2)
  else if trimmed = "immutable" then ({ acc.1 with immutable := true }, acc.2)
  else if jsStartsWith trimmed "max-age=" then
    match jsParseIntDec (jsSlice trimmed 8) with
    | some v => (acc.1, some (v * 1000), acc.2.2)
    | none => acc
  else if jsStartsWith trimmed "s-maxage=" then
    match jsParseIntDec (jsSlice trimmed 9) with
    | some v => (acc.1, acc.2.1, some (v * 1000))
    | none => acc
  else acc

/-- `parseCacheControl(header)`; `if (!header)` makes both `null` and
the empty string return the defaults. -/
def parseCacheControl (header : Option String) : CacheControlDirectives :=
  match header with
  | none => DEFAULT_DIRECTIVES
  | some h =>
    if h = "" then DEFAULT_DIRECTIVES
    else
      let parts := jsSplit ',' (jsToLower h)
      let st := parts.foldl cacheControlStep (DEFAULT_DIRECTIVES, none, none)
      { st.1 with maxAge := st.2.1, sMaxAge := st.2.2 }

/-- The `maxAge` contribution of one comma-separated part, read off the
`max-age=` branch of the loop body: `some (v * 1000)` when the trimmed
part has the prefix and `parseInt` extracts `v`, `none` otherwise
(including the `NaN` case, which leaves the pending value untouched). -/
def maxAgeEffect (part : String) : Option Int :=
  let trimmed := jsTrim part
  if jsStartsWith trimmed "max-age=" then
    (jsParseIntDec (jsSlice trimmed 8)).map (fun v => v * 1000)
  else none

/-- The `sMaxAge` contribution of one part, read off the `s-maxage=`
branch; the branch sits behind the `max-age=` test in the source's
`else` chain, mirrored here. -/
def sMaxAgeEffect (part : String) : Option Int :=
  let trimmed := jsTrim part
  if jsStartsWith trimmed "max-age=" then none
  else if jsStartsWith trimmed "s-maxage=" then
    (jsParseIntDec (jsSlice trimmed 9)).map (fun v => v * 1000)
  else none

/-- Modelled from the spec: a "well-formed number" value token — an
optional sign followed only by digits.  Used solely to state what the
spec's "malformed numeric tokens" means in C9; the code itself uses
`Number.parseInt`. -/
def specWellFormedNumberToken (s : String) : Bool :=
  match s.data with
  | '-' :: rest => !rest.isEmpty && rest.all (fun c => c.isDigit)
  | '+' :: rest => !rest.isEmpty && rest.all (fun c => c.isDigit)
  | rest => !rest.isEmpty && rest.all (fun c => c.isDigit)

/-! ## Retry strategy (`lib/retry/strategy`), default eligibility rule

The executor is modelled as the sequence of results its successive
invocations would produce; `await sleep(...)` does not affect the
returned value and is dropped.  `config.shouldRetry` is absent (the
claims concern the default rule). -/

def RETRYABLE_STATUS_CODES : List Int := [408, 429, 500, 502, 503, 504]

/-- `shouldRetry(error, attempt)` of `createRetryStrategy` with no
custom predicate; `if (error.status && ...)` makes a `0`/absent status
falsy. -/
def defaultShouldRetry (maxRetries : ℕ) (retryOn : List Int)
    (e : HttpError) (attempt : ℕ) : Bool :=
  if attempt ≥ maxRetries then false
  else if e.code = .NETWORK_ERROR || e.code = .TIMEOUT_ERROR then true
  else
    match e.status with
    | some st => if st ≠ 0 then retryOn.contains st else false
    | none => false

/-- Modelled from the spec: retry ineligibility as C8 words it — "its
error is not NETWORK_ERROR/TIMEOUT_ERROR and its status is not in the
retryOn set, or no attempts remain". -/
def specIneligible (maxRetries : ℕ) (retryOn : List Int) (e : HttpError)
    (attempt : ℕ) : Prop :=
  (e.code ≠ .NETWORK_ERROR ∧ e.code ≠ .TIMEOUT_ERROR
    ∧ ∀ st, e.status = some st → st ∉ retryOn)
  ∨ maxRetries ≤ attempt

/-- The `while (attempt <= maxRetries)` loop of `execute`, returning the
final result together with the number of executor invocations.  The
fall-through `return lastResult` (unreachable under the default rule,
marked "should not reach here normally" in the source) is modelled with
`Option.getD`. -/
def retryLoop (maxRetries : ℕ) (retryOn : List Int)
    (results : ℕ → HttpResult T) (attempt : ℕ)
    (lastResult : Option (HttpResult T)) : HttpResult T × ℕ :=
  if attempt ≤ maxRetries then
    match results attempt with
    | .success d m => (.success d m, attempt + 1)
    | .failure e r =>
      if !(defaultShouldRetry maxRetries retryOn e attempt) then
        (.failure e r, attempt + 1)
      else
        retryLoop maxRetries retryOn results (attempt + 1) (some (.failure e r))
  else
    (lastResult.getD (results 0), attempt)
termination_by maxRetries + 1 - attempt

/-- `execute(executor)` of `createRetryStrategy`. -/
def retryExecute (maxRetries : ℕ) (retryOn : List Int)
    (results : ℕ → HttpResult T) : HttpResult T × ℕ :=
  retryLoop maxRetries retryOn results 0 none

/-! ## Circuit breaker (`lib/fetch/retry`, `src/unnamed/part_013`)

`Date.now()` is the explicit parameter `now` (the entry check and the
failure record of one `execute` call are taken at the same instant);
the awaited operation's outcome is the boolean `opSuccess`.  The
synthetic rejection is `failure(createRetryExhaustionError(...))` in
the source, recorded here by the `rejected` flag. -/

inductive CBState where
  | CLOSED | OPEN | HALF_OPEN
deriving DecidableEq, Repr

structure CircuitBreaker where
  failures : ℕ := 0
  lastFailureTime : ℤ := 0
  state : CBState := .CLOSED
deriving DecidableEq, Repr

structure CBConfig where
  failureThreshold : ℕ := 5
  recoveryTimeout : ℤ := 60000
deriving DecidableEq, Repr

/-- `onSuccess()`. -/
def cbOnSuccess (cb : CircuitBreaker) : CircuitBreaker :=
  { cb with failures := 0, state := .CLOSED }

/-- `onFailure()`. -/
def cbOnFailure (cfg : CBConfig) (cb : CircuitBreaker) (now : ℤ) :
    CircuitBreaker :=
  let failures := cb.failures + 1
  { cb with
    failures := failures
    lastFailureTime := now
    state := if failures ≥ cfg.failureThreshold then .OPEN else cb.state }

structure CBExecResult where
  final : CircuitBreaker
  /-- whether the wrapped operation was invoked -/
  invoked : Bool
  /-- breaker state at the moment the operation runs -/
  stateAtCall : Option CBState
  /-- synthetic retry-exhaustion failure returned without invoking -/
  rejected : Bool
deriving DecidableEq, Repr

/-- `execute(operation)`. -/
def cbExecute (cfg : CBConfig) (cb : CircuitBreaker) (now : ℤ)
    (opSuccess : Bool) : CBExecResult :=
  if cb.state = .OPEN ∧ now - cb.lastFailureTime < cfg.recoveryTimeout then
    { final := cb, invoked := false, stateAtCall := none, rejected := true }
  else
    let cb1 := if cb.state = .OPEN then { cb with state := .HALF_OPEN } else cb
    if opSuccess then
      { final := cbOnSuccess cb1, invoked := true
        stateAtCall := some cb1.state, rejected := false }
    else
      { final := cbOnFailure cfg cb1 now, invoked := true
        stateAtCall := some cb1.state, rejected := false }

/-- `reset()`. -/
def cbReset : CircuitBreaker := {}

/-- States reachable through `execute` calls from a fresh breaker. -/
inductive CBReachable (cfg : CBConfig) : CircuitBreaker → Prop where
  | init : CBReachable cfg {}
  | step (cb : CircuitBreaker) (now : ℤ) (b : Bool) :
      CBReachable cfg cb → CBReachable cfg (cbExecute cfg cb now b).final

/-- A sequence of failing calls, also recording whether every one of
them invoked the wrapped operation. -/
def cbFailMany (cfg : CBConfig) (start : CircuitBreaker × Bool)
    (times : List ℤ) : CircuitBreaker × Bool :=
  times.foldl
    (fun acc t =>
      let r := cbExecute cfg acc.1 t false
      (r.final, acc.2 && r.invoked))
    start

/-! ## Request deduplicator (`lib/cache/deduplicator`, `src/src/lib/core.ts`)

Promises are modelled by numeric ids.  `dedupe` registers
`executor().finally(() => inFlight.delete(key))`; settlement of a
promise (fulfilment or rejection alike) therefore deletes its captured
key from the ledger unconditionally.  `keyGenerator` is abstracted: the
events carry the generated key. -/

structure DedupState where
  /-- the in-flight ledger: cache key ↦ registered promise id -/
  inFlight : List (String × ℕ) := []
  /-- promise ids that have settled (resolved or rejected) -/
  settled : List ℕ := []
  /-- every executor invocation so far, most recent first: (id, key) -/
  invocations : List (ℕ × String) := []
  nextId : ℕ := 0
deriving DecidableEq, Repr

inductive DedupEvent where
  | dedupe (key : String)
  /-- settlement of promise `pid`; `success` records fulfilment versus
  rejection, which the `finally`-registered cleanup ignores -/
  | settle (pid : ℕ) (success : Bool)
  | clear
deriving DecidableEq, Repr

def dedupStep (s : DedupState) (ev : DedupEvent) : DedupState :=
  match ev with
  | .dedupe key =>
    match alookup s.inFlight key with
    | some _ => s
    | none =>
      { s with
        invocations := (s.nextId, key) :: s.invocations
        inFlight := aset s.inFlight key s.nextId
        nextId := s.nextId + 1 }
  | .settle pid _success =>
    match alookup s.invocations pid with
    | none => s
    | some key =>
      if pid ∈ s.settled then s
      else
        { s with
          settled := pid :: s.settled
          inFlight := adel s.inFlight key }
  | .clear => { s with inFlight := [] }

/-- The promise returned by a `dedupe` call on state `s`: the existing
registration if in flight, or the freshly created promise. -/
def dedupReturnedPid (s : DedupState) (key : String) : ℕ :=
  match alookup s.inFlight key with
  | some pid => pid
  | none => s.nextId

def dedupRun (events : List DedupEvent) : DedupState :=
  events.foldl dedupStep {}

/-- `getInFlightCount()`. -/
def getInFlightCount (s : DedupState) : ℕ := s.inFlight.length

/-- Invocations whose promise has not settled. -/
def unsettledInvs (s : DedupState) : List (ℕ × String) :=
  s.invocations.filter (fun iv => !(s.settled.contains iv.1))

/-- `true` when the trace never calls `clear()`. -/
def clearFree (events : List DedupEvent) : Prop := DedupEvent.clear ∉ events

/-- Consistency invariant of the deduplicator ledger: distinct in-flight
keys, distinct promise ids, ids bounded by `nextId`, and the ledger
holding exactly the unsettled invocations. -/
def DedupInv (s : DedupState) : Prop :=
  (s.inFlight.map Prod.fst).Nodup
  ∧ (s.invocations.map Prod.fst).Nodup
  ∧ (∀ pid ∈ s.invocations.map Prod.fst, pid < s.nextId)
  ∧ (∀ pid ∈ s.settled, pid < s.nextId)
  ∧ (∀ (k : String) (pid : ℕ),
      (k, pid) ∈ s.inFlight ↔ ((pid, k) ∈ s.invocations ∧ pid ∉ s.settled))

/-- The entry that `set` writes under default options (no per-request
ttl/tags/etag/lastModified). -/
def defaultEntry (cfg : LRUConfig) (result : HttpResult T) (now : Int) :
    CacheEntry T :=
  { data := result
    timestamp := now
    ttl := cfg.ttl
    staleUntil := now + cfg.ttl + cfg.staleWhileRevalidate }

/-! ## Concrete inputs used by witnesses and counterexamples -/

/-- A successful result with inert metadata, used as generic payload. -/
def wOkResult : HttpResult Nat := .success 7 { status := 200 }

/-- A stored entry that is fresh until 10 and stale until 15. -/
def wEntry : CacheEntry Nat :=
  { data := wOkResult, timestamp := 0, ttl := 10, staleUntil := 15 }

/-- A one-entry cache state. -/
def wState : LRUState Nat := { entries := [("k", wEntry)] }

/-- A capacity-1 configuration with ttl 10 and no stale window. -/
def wCfg1 : LRUConfig := { maxEntries := 1, ttl := 10, staleWhileRevalidate := 0 }

/-- A capacity-2 configuration with ttl 10 and no stale window. -/
def wCfg2 : LRUConfig := { maxEntries := 2, ttl := 10, staleWhileRevalidate := 0 }

/-- A full (capacity-2) cache whose oldest entry is `"a"`. -/
def wState2 : LRUState Nat := { entries := [("a", wEntry), ("k", wEntry)] }

/-- A full capacity-2 cache whose oldest key is the empty string (the
falsy-guard case of `set`'s eviction). -/
def wStateE : LRUState Nat := { entries := [("", wEntry), ("k", wEntry)] }

/-- Two requests for the C6 counterexample: their vary-relevant header
values differ, yet delimiter characters inside the values make the
generated vary suffixes collide. -/
def wVaryC1 : RequestConfig :=
  { method := "GET", url := "u", headers := some [("A", "1,B:2"), ("B", "")] }

def wVaryC2 : RequestConfig :=
  { method := "GET", url := "u", headers := some [("A", "1"), ("B", "2,B:")] }

/-! # Theorems -/

/-! ## Association-list lemmas (JavaScript `Map` semantics) -/

theorem alookup_eq_none_iff [DecidableEq κ] (l : List (κ × α)) (k : κ) :
    alookup l k = none ↔ k ∉ l.map Prod.fst := by
  induction l with
  | nil => simp [alookup]
  | cons p rest ih =>
    obtain ⟨k1, v1⟩ := p
    by_cases h : k1 = k <;> simp [alookup, h, ih]
    tauto

theorem alookup_mem [DecidableEq κ] {l : List (κ × α)} {k : κ} {v : α}
    (h : alookup l k = some v) : (k, v) ∈ l := by
  induction l with
  | nil => simp [alookup] at h
  | cons p rest ih =>
    obtain ⟨k1, v1⟩ := p
    by_cases hk : k1 = k
    · subst hk
      simp [alookup] at h
      simp [h]
    · simp [alookup, hk] at h
      simp [ih h]

theorem alookup_adel_self [DecidableEq κ] (l : List (κ × α)) (k : κ)
    (h : (l.map Prod.fst).Nodup) : alookup (adel l k) k = none := by
  induction l with
  | nil => simp [adel, alookup]
  | cons p rest ih =>
    obtain ⟨k1, v1⟩ := p
    simp only [List.map_cons, List.nodup_cons] at h
    by_cases hk : k1 = k
    · subst hk
      simpa [adel, alookup_eq_none_iff] using h.1
    · simp [adel, hk, alookup, ih h.2]

/-! ## C1: `get` freshness partition of the LRU/TTL cache

The entry well-formedness hypothesis `timestamp + ttl ≤ staleUntil` is
the CacheEntry invariant of the data model (every entry written by
`set` with a nonnegative stale window satisfies it). -/

/-- C1.  For a stored entry (with success payload, as `set` only stores
successes) and a `get` at time `now`: the call returns a value iff
`now ≤ staleUntil`; a hard-expired entry is deleted and counted as a
miss; a fresh hit (`now ≤ timestamp + ttl`) is returned with
`cacheHit = 'fresh'`; a stale hit within the window with
`cacheHit = 'stale'`. -/
theorem lru_get_freshness_partition {T : Type} (s : LRUState T) (key : String)
    (now : Int) (e : CacheEntry T) (d : T) (m : ResponseMeta)
    (hlook : alookup s.entries key = some e)
    (hnodup : (s.entries.map Prod.fst).Nodup)
    (hdata : e.data = .success d m)
    (hwf : e.timestamp + e.ttl ≤ e.staleUntil) :
    ((lruGet s key now).1 ≠ none ↔ now ≤ e.staleUntil)
    ∧ (e.staleUntil < now →
        alookup (lruGet s key now).2.entries key = none
        ∧ (lruGet s key now).2.misses = s.misses + 1)
    ∧ (now ≤ e.timestamp + e.ttl →
        (lruGet s key now).1 =
          some (.success d { m with cached := true, cacheHit := some .fresh }))
    ∧ (e.timestamp + e.ttl < now → now ≤ e.staleUntil →
        (lruGet s key now).1 =
          some (.success d { m with cached := true, cacheHit := some .stale })) := by
  simp only [lruGet, hlook]
  by_cases h1 : now > e.staleUntil
  · simp only [if_pos h1]
    refine ⟨by simp; omega, fun _ => ⟨alookup_adel_self _ _ hnodup, by simp⟩,
      fun h2 => absurd h1 (by omega), fun _ h3 => absurd h1 (by omega)⟩
  · simp only [if_neg h1]
    by_cases h2 : now ≤ e.timestamp + e.ttl
    · simp only [if_pos h2]
      exact ⟨by simp; omega, fun h => absurd h (by omega),
        fun _ => by simp [updateResponseMeta, hdata],
        fun h3 _ => absurd h3 (by omega)⟩
    · simp only [if_neg h2]
      exact ⟨by simp; omega, fun h => absurd h (by omega),
        fun h3 => absurd h3 (by omega),
        fun _ _ => by simp [updateResponseMeta, hdata]⟩

/-- Witness for C1 at a concrete fresh hit (`now = 5`). -/
theorem lru_get_freshness_partition_witness :
    (alookup wState.entries "k" = some wEntry
      ∧ (wState.entries.map Prod.fst).Nodup
      ∧ wEntry.data = .success 7 { status := 200 }
      ∧ wEntry.timestamp + wEntry.ttl ≤ wEntry.staleUntil)
    ∧ (((lruGet wState "k" 5).1 ≠ none ↔ (5:Int) ≤ wEntry.staleUntil)
      ∧ (wEntry.staleUntil < 5 →
          alookup (lruGet wState "k" 5).2.entries "k" = none
          ∧ (lruGet wState "k" 5).2.misses = wState.misses + 1)
      ∧ ((5:Int) ≤ wEntry.timestamp + wEntry.ttl →
          (lruGet wState "k" 5).1 =
            some (HttpResult.success 7
              { status := 200, cached := true, cacheHit := some CacheHit.fresh }))
      ∧ (wEntry.timestamp + wEntry.ttl < 5 → (5:Int) ≤ wEntry.staleUntil →
          (lruGet wState "k" 5).1 =
            some (HttpResult.success 7
              { status := 200, cached := true, cacheHit := some CacheHit.stale }))) :=
  ⟨⟨by decide, by decide, by decide, by decide⟩,
    lru_get_freshness_partition wState "k" 5 wEntry 7 { status := 200 }
      (by decide) (by decide) (by decide) (by decide)⟩

theorem aset_map_fst_of_mem [DecidableEq κ] {l : List (κ × α)} {k : κ} (v : α)
    (h : k ∈ l.map Prod.fst) : (aset l k v).map Prod.fst = l.map Prod.fst := by
  induction l with
  | nil => simp at h
  | cons p rest ih =>
    obtain ⟨k1, v1⟩ := p
    by_cases hk : k1 = k
    · simp [aset, hk]
    · simp only [List.map_cons, List.mem_cons] at h
      rcases h with h | h

      · exact absurd h.symm hk
      · simp [aset, hk, ih h]

theorem aset_length_of_mem [DecidableEq κ] {l : List (κ × α)} {k : κ} (v : α)
    (h : k ∈ l.map Prod.fst) : (aset l k v).length = l.length := by
  have h2 := congrArg List.length (aset_map_fst_of_mem v h)
  simpa using h2

theorem aset_append_of_not_mem [DecidableEq κ] {l : List (κ × α)} {k : κ}
    (v : α) (h : k ∉ l.map Prod.fst) : aset l k v = l ++ [(k, v)] := by
  induction l with
  | nil => simp [aset]
  | cons p rest ih =>
    obtain ⟨k1, v1⟩ := p
    simp only [List.map_cons, List.mem_cons, not_or] at h
    simp [aset, Ne.symm h.1, ih h.2]

/-! ## C10: `set` of an existing key while at capacity -/

/-- C10, counterexample: the claimed eviction of an existing-key write
at capacity is *not* unconditional.  With the oldest key `""`, the
`if (firstKey)` guard of `set` treats it as falsy: rewriting the present
key `"k"` in the full cache `[("", _), ("k", _)]` performs no eviction,
leaves `evictions` unchanged, and keeps both keys. -/
theorem lru_set_existing_key_counterexample :
    wCfg2.maxEntries ≤ wStateE.entries.length
    ∧ alookup wStateE.entries "k" = some wEntry
    ∧ (lruSet wCfg2 wStateE "k" (.success (7:Nat) { status := 200 }) 3 {}).evictions
        = wStateE.evictions
    ∧ ((lruSet wCfg2 wStateE "k" (.success 7 { status := 200 }) 3 {}).entries.map
        Prod.fst) = ["", "k"]
    ∧ (lruSet wCfg2 wStateE "k" (.success 7 { status := 200 }) 3 {}).entries.length
        = wStateE.entries.length := by
  refine ⟨by decide, by decide, by decide, by decide, by decide⟩

/-- C10 (amended: the oldest key must be non-empty — the empty-string
oldest key hits the falsy `if (firstKey)` guard and nothing is evicted).
When `set` rewrites a key already present while the cache is at (or
above) capacity and the current oldest key is non-empty, that oldest
entry is evicted and `evictions` incremented even though the rewrite
does not grow the cache.  If the oldest key differs from the written
key, an unrelated entry is lost, the written key keeps its previous
recency position (the surviving key order is the old order minus the
evicted head), and the cache shrinks by one.  If the oldest key *is* the
written key, it is evicted and re-appended, so the cache size is
unchanged but the key moves to the most-recently-used position — and the
evictions counter still increments. -/
theorem lru_set_existing_key_at_capacity {T : Type} (cfg : LRUConfig)
    (s : LRUState T) (f k : String) (ef : CacheEntry T)
    (rest : List (String × CacheEntry T)) (d : T) (m : ResponseMeta)
    (now : Int) (options : CacheSetOptions)
    (hentries : s.entries = (f, ef) :: rest)
    (hcap : cfg.maxEntries ≤ s.entries.length)
    (hf : f ≠ "")
    (hnodup : (s.entries.map Prod.fst).Nodup) :
    (k ∈ rest.map Prod.fst →
      (lruSet cfg s k (.success d m) now options).evictions = s.evictions + 1
      ∧ (lruSet cfg s k (.success d m) now options).entries.map Prod.fst
          = rest.map Prod.fst
      ∧ f ∉ (lruSet cfg s k (.success d m) now options).entries.map Prod.fst
      ∧ (lruSet cfg s k (.success d m) now options).entries.length + 1
          = s.entries.length)
    ∧ (k = f →
      (lruSet cfg s k (.success d m) now options).evictions = s.evictions + 1
      ∧ (lruSet cfg s k (.success d m) now options).entries.map Prod.fst
          = rest.map Prod.fst ++ [k]
      ∧ (lruSet cfg s k (.success d m) now options).entries.length
          = s.entries.length) := by
  have hfk : f ∉ rest.map Prod.fst := by
    rw [hentries] at hnodup
    exact (List.nodup_cons.1 (by simpa using hnodup)).1
  obtain ⟨entries, hits, misses, staleHits, evictions⟩ := s
  simp only at hentries
  subst hentries
  simp only at hcap hnodup ⊢
  have hlen : cfg.maxEntries ≤ ((f, ef) :: rest).length := hcap
  constructor
  · intro hk
    simp only [lruSet, ge_iff_le, hlen, if_true, List.head?_cons, hf, ne_eq,
      not_false_eq_true, if_pos, adel, if_true]
    refine ⟨by simp [hlen, hf, adel], ?_, ?_, ?_⟩
    · simp [hlen, hf, adel, aset_map_fst_of_mem _ hk]
    · simp [hlen, hf, adel, aset_map_fst_of_mem _ hk, hfk]
    · simp [hlen, hf, adel, aset_length_of_mem _ hk]
  · intro hkf
    subst hkf
    simp only [lruSet, ge_iff_le, hlen, if_true, List.head?_cons, hf, ne_eq,
      not_false_eq_true, if_pos, adel, if_true]
    refine ⟨?_, ?_, ?_⟩
    · simp [hlen, hf, adel]
    · simp [hlen, hf, adel, aset_append_of_not_mem _ hfk]
    · simp [hlen, hf, adel, aset_append_of_not_mem _ hfk]

/-- Witness for C10: in the full capacity-2 cache `[("a", _), ("k", _)]`,
rewriting `"k"` evicts the unrelated oldest key `"a"` with `"k"` keeping
its position, and rewriting `"a"` itself evicts and re-appends it at the
most-recently-used end, incrementing `evictions` both times. -/
theorem lru_set_existing_key_at_capacity_witness :
    (wState2.entries = ("a", wEntry) :: [("k", wEntry)]
      ∧ wCfg2.maxEntries ≤ wState2.entries.length
      ∧ "a" ≠ ""
      ∧ "k" ∈ [("k", wEntry)].map Prod.fst
      ∧ (wState2.entries.map Prod.fst).Nodup)
    ∧ ((lruSet wCfg2 wState2 "k" (.success 7 { status := 200 }) 3 {}).evictions
          = wState2.evictions + 1
      ∧ (lruSet wCfg2 wState2 "k" (.success 7 { status := 200 }) 3 {}).entries.map
          Prod.fst = [("k", wEntry)].map Prod.fst
      ∧ "a" ∉ (lruSet wCfg2 wState2 "k"
          (.success 7 { status := 200 }) 3 {}).entries.map Prod.fst
      ∧ (lruSet wCfg2 wState2 "k"
          (.success 7 { status := 200 }) 3 {}).entries.length + 1
          = wState2.entries.length)
    ∧ ((lruSet wCfg2 wState2 "a" (.success 7 { status := 200 }) 3 {}).evictions
          = wState2.evictions + 1
      ∧ (lruSet wCfg2 wState2 "a" (.success 7 { status := 200 }) 3 {}).entries.map
          Prod.fst = ([("k", wEntry)].map Prod.fst) ++ ["a"]
      ∧ (lruSet wCfg2 wState2 "a"
          (.success 7 { status := 200 }) 3 {}).entries.length
          = wState2.entries.length) :=
  ⟨⟨by decide, by decide, by decide, by decide, by decide⟩,
    (lru_set_existing_key_at_capacity wCfg2 wState2 "a" "k" wEntry
      [("k", wEntry)] 7 { status := 200 } 3 {}
      (by decide) (by decide) (by decide) (by decide)).1 (by decide),
    (lru_set_existing_key_at_capacity wCfg2 wState2 "a" "a" wEntry
      [("k", wEntry)] 7 { status := 200 } 3 {}
      (by decide) (by decide) (by decide) (by decide)).2 rfl⟩

/-! ## C2: LRU eviction order -/

/-- `set` of a success below capacity with default options: pure insert. -/
theorem lruSet_no_evict {T : Type} (cfg : LRUConfig) (s : LRUState T)
    (k : String) (d : T) (m : ResponseMeta) (now : Int)
    (hlen : s.entries.length < cfg.maxEntries) :
    lruSet cfg s k (.success d m) now {} =
      { s with entries := aset s.entries k (defaultEntry cfg (.success d m) now) } := by
  have h : ¬(cfg.maxEntries ≤ s.entries.length) := by omega
  simp [lruSet, h, defaultEntry, truthyStr]

/-- `set` of a success at capacity whose oldest key is truthy and whose
written key is fresh: evict the head, append the new entry. -/
theorem lruSet_evict_insert {T : Type} (cfg : LRUConfig) (f : String)
    (ef : CacheEntry T) (restE : List (String × CacheEntry T))
    (hits misses staleHits evictions : Nat) (k : String) (d : T)
    (m : ResponseMeta) (now : Int)
    (hcap : cfg.maxEntries ≤ ((f, ef) :: restE).length)
    (hf : f ≠ "")
    (hk : k ∉ restE.map Prod.fst) :
    lruSet cfg ⟨(f, ef) :: restE, hits, misses, staleHits, evictions⟩ k
        (.success d m) now {} =
      ⟨restE ++ [(k, defaultEntry cfg (.success d m) now)],
        hits, misses, staleHits, evictions + 1⟩ := by
  have hcap2 : cfg.maxEntries ≤ restE.length + 1 := by simpa using hcap
  simp [lruSet, hcap2, hf, adel, aset_append_of_not_mem _ hk, defaultEntry,
    truthyStr]

/-- Filling below capacity from any state appends the entries in
insertion order with no eviction and no counter change. -/
theorem lruSetMany_fill {T : Type} (cfg : LRUConfig) (d : T) (m : ResponseMeta) :
    ∀ (items : List (String × Int)) (s : LRUState T),
    s.entries.length + items.length ≤ cfg.maxEntries →
    (∀ k ∈ items.map Prod.fst, k ∉ s.entries.map Prod.fst) →
    (items.map Prod.fst).Nodup →
    lruSetMany cfg s items (.success d m) =
      { s with entries := s.entries
          ++ items.map (fun it => (it.1, defaultEntry cfg (.success d m) it.2)) } := by
  intro items
  induction items with
  | nil => intro s _ _ _; simp [lruSetMany]
  | cons it restI ih =>
    intro s hlen hdisj hnodup
    obtain ⟨k0, t0⟩ := it
    have h1 : s.entries.length < cfg.maxEntries := by
      simp only [List.length_cons] at hlen; omega
    have hk0 : k0 ∉ s.entries.map Prod.fst := hdisj k0 (by simp)
    have hstep : lruSet cfg s k0 (.success d m) t0 {} =
        { s with entries := s.entries ++ [(k0, defaultEntry cfg (.success d m) t0)] } := by
      rw [lruSet_no_evict cfg s k0 d m t0 h1, aset_append_of_not_mem _ hk0]
    simp only [List.map_cons, List.nodup_cons] at hnodup
    obtain ⟨hk0nr, hnr⟩ := hnodup
    simp only [lruSetMany, List.foldl_cons] at ih ⊢
    rw [hstep, ih]
    · simp
    · simp only [List.length_append, List.length_cons] at hlen ⊢
      simp only [List.length_nil]
      omega
    · intro k hk
      have ha : k ∉ List.map Prod.fst s.entries := hdisj k (by simp [hk])
      have hb : k ≠ k0 := fun he => hk0nr (he ▸ hk)
      simp [ha, hb]
    · exact hnr

theorem lruSetMany_append {T : Type} (cfg : LRUConfig) (s : LRUState T)
    (l1 l2 : List (String × Int)) (r : HttpResult T) :
    lruSetMany cfg s (l1 ++ l2) r = lruSetMany cfg (lruSetMany cfg s l1 r) l2 r := by
  simp [lruSetMany, List.foldl_append]

theorem map_fst_map_entry (l : List (String × Int))
    (f : String × Int → CacheEntry T) :
    (l.map (fun it => (it.1, f it))).map Prod.fst = l.map Prod.fst := by
  simp [List.map_map]

/-- After a valid (non-expired) `get`, the entry moves to the
most-recently-used position; counters other than hits/staleHits are
untouched. -/
theorem lruGet_promotes {T : Type} (s : LRUState T) (k : String)
    (e : CacheEntry T) (g : Int)
    (hlook : alookup s.entries k = some e)
    (hval : g ≤ e.staleUntil) :
    (lruGet s k g).2.entries = adel s.entries k ++ [(k, e)]
    ∧ (lruGet s k g).2.evictions = s.evictions := by
  simp only [lruGet, hlook]
  have h : ¬(g > e.staleUntil) := by omega
  simp only [if_neg h]
  by_cases h2 : g ≤ e.timestamp + e.ttl <;> simp [h2]

/-- Scenario A of C2: `maxEntries + 1` distinct insertions with no
intervening `get` (first key nonempty) evict exactly the first key. -/
theorem lru_evict_scenarioA {T : Type} (cfg : LRUConfig) (k0 : String)
    (t0 : Int) (mid : List (String × Int)) (kL : String) (tL : Int)
    (d : T) (m : ResponseMeta)
    (hmax : cfg.maxEntries = mid.length + 1)
    (hk0 : k0 ≠ "")
    (hnodup : (((k0, t0) :: (mid ++ [(kL, tL)])).map Prod.fst).Nodup) :
    (lruSetMany cfg {} ((k0, t0) :: (mid ++ [(kL, tL)]))
        (HttpResult.success d m)).evictions = 1
    ∧ (lruSetMany cfg {} ((k0, t0) :: (mid ++ [(kL, tL)]))
        (HttpResult.success d m)).entries.map Prod.fst
        = (mid ++ [(kL, tL)]).map Prod.fst
    ∧ k0 ∉ (lruSetMany cfg {} ((k0, t0) :: (mid ++ [(kL, tL)]))
        (HttpResult.success d m)).entries.map Prod.fst := by
  have hnodup2 := hnodup
  simp only [List.map_cons, List.map_append, List.map_nil,
    List.nodup_cons] at hnodup2
  obtain ⟨hA, hB⟩ := hnodup2
  have f1 : k0 ∉ mid.map Prod.fst := fun h => hA (by simp [h])
  have f2 : k0 ≠ kL := fun h => hA (by simp [h])
  have hBC : (kL :: mid.map Prod.fst).Nodup :=
    ((List.perm_append_singleton _ _).nodup_iff).1 hB
  have f3 : (mid.map Prod.fst).Nodup := (List.nodup_cons.1 hBC).2
  have f4 : kL ∉ mid.map Prod.fst := (List.nodup_cons.1 hBC).1
  have hfillNodup : (((k0, t0) :: mid).map Prod.fst).Nodup := by
    simp only [List.map_cons, List.nodup_cons]
    exact ⟨f1, f3⟩
  have hfill := lruSetMany_fill cfg d m ((k0, t0) :: mid) {}
    (by simp [hmax]) (by simp) hfillNodup
  have hsplit : ((k0, t0) :: (mid ++ [(kL, tL)]))
      = ((k0, t0) :: mid) ++ [(kL, tL)] := by simp
  rw [hsplit, lruSetMany_append, hfill]
  have hone : ∀ s : LRUState T,
      lruSetMany cfg s [(kL, tL)] (HttpResult.success d m)
        = lruSet cfg s kL (HttpResult.success d m) tL {} := by
    intro s; simp [lruSetMany]
  rw [hone]
  have hev := lruSet_evict_insert cfg k0
    (defaultEntry cfg (HttpResult.success d m) t0)
    (mid.map (fun it => (it.1, defaultEntry cfg (HttpResult.success d m) it.2)))
    0 0 0 0 kL d m tL
    (by simp [hmax]) hk0
    (by rw [map_fst_map_entry]; exact f4)
  simp only [List.map_cons, List.nil_append] at hev ⊢
  rw [hev]
  refine ⟨rfl, ?_, ?_⟩
  · simp [map_fst_map_entry]
  · simp only [List.map_append, map_fst_map_entry, List.map_cons, List.map_nil,
      List.mem_append, List.mem_cons, List.mem_singleton, not_or]
    refine ⟨f1, by simpa using f2⟩

/-- Field-level form of `lruSet_evict_insert`. -/
theorem lruSet_evict_insert_fields {T : Type} (cfg : LRUConfig)
    (s : LRUState T) (f : String) (ef : CacheEntry T)
    (restE : List (String × CacheEntry T)) (k : String) (d : T)
    (m : ResponseMeta) (now : Int)
    (hent : s.entries = (f, ef) :: restE)
    (hcap : cfg.maxEntries ≤ s.entries.length)
    (hf : f ≠ "")
    (hk : k ∉ restE.map Prod.fst) :
    (lruSet cfg s k (.success d m) now {}).entries
        = restE ++ [(k, defaultEntry cfg (.success d m) now)]
    ∧ (lruSet cfg s k (.success d m) now {}).evictions = s.evictions + 1 := by
  obtain ⟨entries, hits, misses, staleHits, evictions⟩ := s
  simp only at hent
  subst hent
  rw [lruSet_evict_insert cfg f ef restE hits misses staleHits evictions
    k d m now hcap hf hk]
  exact ⟨rfl, rfl⟩

/-- Scenario B of C2: fill to capacity, promote the oldest key with a
valid `get`, then insert a fresh key: the second-oldest key is evicted
and the promoted key survives. -/
theorem lru_evict_scenarioB {T : Type} (cfg : LRUConfig) (k0 k1 : String)
    (t0 t1 : Int) (restI2 : List (String × Int)) (kN : String) (tN g : Int)
    (d : T) (m : ResponseMeta)
    (hmax : cfg.maxEntries = restI2.length + 2)
    (hk1 : k1 ≠ "")
    (hnodup : (((k0, t0) :: (k1, t1) :: restI2).map Prod.fst).Nodup)
    (hkN : kN ∉ ((k0, t0) :: (k1, t1) :: restI2).map Prod.fst)
    (hg : g ≤ t0 + cfg.ttl + cfg.staleWhileRevalidate) :
    (lruSet cfg
        (lruGet (lruSetMany cfg {} ((k0, t0) :: (k1, t1) :: restI2)
          (HttpResult.success d m)) k0 g).2 kN
        (HttpResult.success d m) tN {}).evictions = 1
    ∧ (lruSet cfg
        (lruGet (lruSetMany cfg {} ((k0, t0) :: (k1, t1) :: restI2)
          (HttpResult.success d m)) k0 g).2 kN
        (HttpResult.success d m) tN {}).entries.map Prod.fst
        = restI2.map Prod.fst ++ [k0, kN]
    ∧ k0 ∈ (lruSet cfg
        (lruGet (lruSetMany cfg {} ((k0, t0) :: (k1, t1) :: restI2)
          (HttpResult.success d m)) k0 g).2 kN
        (HttpResult.success d m) tN {}).entries.map Prod.fst
    ∧ k1 ∉ (lruSet cfg
        (lruGet (lruSetMany cfg {} ((k0, t0) :: (k1, t1) :: restI2)
          (HttpResult.success d m)) k0 g).2 kN
        (HttpResult.success d m) tN {}).entries.map Prod.fst := by
  -- nodup and freshness facts
  have hn := hnodup
  simp only [List.map_cons, List.nodup_cons, List.mem_cons, not_or] at hn
  obtain ⟨⟨h01, h0r⟩, h1r, hr⟩ := hn
  simp only [List.map_cons, List.mem_cons, not_or] at hkN
  obtain ⟨hN0, hN1, hNr⟩ := hkN
  set s1 := lruSetMany cfg {} ((k0, t0) :: (k1, t1) :: restI2)
    (HttpResult.success d m) with hs1
  -- fill to capacity
  have hfill := lruSetMany_fill cfg d m ((k0, t0) :: (k1, t1) :: restI2) {}
    (by simp [hmax]) (by simp) hnodup
  have hent1 : s1.entries
      = (k0, defaultEntry cfg (HttpResult.success d m) t0)
        :: (k1, defaultEntry cfg (HttpResult.success d m) t1)
        :: restI2.map (fun it => (it.1, defaultEntry cfg (HttpResult.success d m) it.2)) := by
    rw [hs1, hfill]
    simp
  have hev1 : s1.evictions = 0 := by
    rw [hs1, hfill]
  -- the valid get promotes k0 to the most-recently-used position
  have hlook : alookup s1.entries k0
      = some (defaultEntry cfg (HttpResult.success d m) t0) := by
    rw [hent1]; simp [alookup]
  have hprom := lruGet_promotes s1 k0
    (defaultEntry cfg (HttpResult.success d m) t0) g hlook
    (by simp [defaultEntry]; omega)
  set s2 := (lruGet s1 k0 g).2 with hs2
  obtain ⟨hent2, hev2⟩ := hprom
  have hent2' : s2.entries
      = (k1, defaultEntry cfg (HttpResult.success d m) t1)
        :: (restI2.map (fun it => (it.1, defaultEntry cfg (HttpResult.success d m) it.2))
            ++ [(k0, defaultEntry cfg (HttpResult.success d m) t0)]) := by
    rw [hent2, hent1]
    simp [adel, Ne.symm h01]
  have hev2' : s2.evictions = 0 := by rw [hev2, hev1]
  -- final insert evicts the new head k1
  have hkNr : kN ∉ (restI2.map
      (fun it => (it.1, defaultEntry cfg (HttpResult.success d m) it.2))
      ++ [(k0, defaultEntry cfg (HttpResult.success d m) t0)]).map Prod.fst := by
    simp only [List.map_append, map_fst_map_entry, List.map_cons, List.map_nil,
      List.mem_append, List.mem_cons, List.mem_singleton, not_or]
    exact ⟨hNr, by simpa using hN0⟩
  have hcap2 : cfg.maxEntries ≤ s2.entries.length := by
    rw [hent2']
    simp [hmax]
  have hfin := lruSet_evict_insert_fields cfg s2 k1
    (defaultEntry cfg (HttpResult.success d m) t1)
    (restI2.map (fun it => (it.1, defaultEntry cfg (HttpResult.success d m) it.2))
      ++ [(k0, defaultEntry cfg (HttpResult.success d m) t0)])
    kN d m tN hent2' hcap2 hk1 hkNr
  obtain ⟨hfent, hfev⟩ := hfin
  refine ⟨by rw [hfev, hev2'], ?_, ?_, ?_⟩
  · rw [hfent]
    simp [map_fst_map_entry]
  · rw [hfent]
    simp [map_fst_map_entry]
  · rw [hfent]
    simp only [List.map_append, map_fst_map_entry, List.map_cons, List.map_nil,
      List.append_assoc, List.mem_append, List.mem_cons, List.mem_singleton,
      not_or, List.not_mem_nil]
    refine ⟨h1r, ?_⟩
    simp [Ne.symm h01, Ne.symm hN1]

/-- Counterexample to C2 as stated: with `maxEntries = 1`, inserting the
two distinct keys `""` then `"b"` with no intervening `get` performs NO
eviction (`if (firstKey)` treats the empty-string oldest key as falsy),
so the first-inserted key survives, the eviction counter stays 0, and
the cache exceeds its capacity. -/
theorem lru_eviction_order_counterexample :
    (lruSetMany wCfg1 {} [("", 5), ("b", 6)] wOkResult).evictions = 0
    ∧ "" ∈ (lruSetMany wCfg1 {} [("", 5), ("b", 6)] wOkResult).entries.map Prod.fst
    ∧ (lruSetMany wCfg1 {} [("", 5), ("b", 6)] wOkResult).entries.length = 2 := by
  decide

/-- C2 (amended: the first-inserted key — the eviction candidate — must
be a nonempty string, since `if (firstKey)` skips eviction for the
falsy empty-string key).  Part one: inserting `maxEntries + 1` distinct
keys with no intervening `get` evicts exactly the first-inserted key,
with exactly one eviction counted.  Part two: a valid `get` promotes
its key to most-recently-used, so the next capacity-triggered eviction
removes the oldest never-re-accessed key instead of the promoted one. -/
theorem lru_eviction_order :
    (∀ (T : Type) (cfg : LRUConfig) (k0 : String) (t0 : Int)
        (mid : List (String × Int)) (kL : String) (tL : Int)
        (d : T) (m : ResponseMeta),
      cfg.maxEntries = mid.length + 1 →
      k0 ≠ "" →
      (((k0, t0) :: (mid ++ [(kL, tL)])).map Prod.fst).Nodup →
      (lruSetMany cfg {} ((k0, t0) :: (mid ++ [(kL, tL)]))
          (HttpResult.success d m)).evictions = 1
      ∧ (lruSetMany cfg {} ((k0, t0) :: (mid ++ [(kL, tL)]))
          (HttpResult.success d m)).entries.map Prod.fst
          = (mid ++ [(kL, tL)]).map Prod.fst
      ∧ k0 ∉ (lruSetMany cfg {} ((k0, t0) :: (mid ++ [(kL, tL)]))
          (HttpResult.success d m)).entries.map Prod.fst)
    ∧ (∀ (T : Type) (cfg : LRUConfig) (k0 k1 : String) (t0 t1 : Int)
        (restI2 : List (String × Int)) (kN : String) (tN g : Int)
        (d : T) (m : ResponseMeta),
      cfg.maxEntries = restI2.length + 2 →
      k1 ≠ "" →
      (((k0, t0) :: (k1, t1) :: restI2).map Prod.fst).Nodup →
      kN ∉ ((k0, t0) :: (k1, t1) :: restI2).map Prod.fst →
      g ≤ t0 + cfg.ttl + cfg.staleWhileRevalidate →
      (lruSet cfg
          (lruGet (lruSetMany cfg {} ((k0, t0) :: (k1, t1) :: restI2)
            (HttpResult.success d m)) k0 g).2 kN
          (HttpResult.success d m) tN {}).evictions = 1
      ∧ (lruSet cfg
          (lruGet (lruSetMany cfg {} ((k0, t0) :: (k1, t1) :: restI2)
            (HttpResult.success d m)) k0 g).2 kN
          (HttpResult.success d m) tN {}).entries.map Prod.fst
          = restI2.map Prod.fst ++ [k0, kN]
      ∧ k0 ∈ (lruSet cfg
          (lruGet (lruSetMany cfg {} ((k0, t0) :: (k1, t1) :: restI2)
            (HttpResult.success d m)) k0 g).2 kN
          (HttpResult.success d m) tN {}).entries.map Prod.fst
      ∧ k1 ∉ (lruSet cfg
          (lruGet (lruSetMany cfg {} ((k0, t0) :: (k1, t1) :: restI2)
            (HttpResult.success d m)) k0 g).2 kN
          (HttpResult.success d m) tN {}).entries.map Prod.fst) :=
  ⟨fun _T cfg k0 t0 mid kL tL d m hmax hk0 hnodup =>
    lru_evict_scenarioA cfg k0 t0 mid kL tL d m hmax hk0 hnodup,
   fun _T cfg k0 k1 t0 t1 restI2 kN tN g d m hmax hk1 hnodup hkN hg =>
    lru_evict_scenarioB cfg k0 k1 t0 t1 restI2 kN tN g d m hmax hk1 hnodup hkN hg⟩

/-- Witness for C2 (amended) at concrete capacity-2 instances. -/
theorem lru_eviction_order_witness :
    (wCfg2.maxEntries = [("b", (1:Int))].length + 1
      ∧ (lruSetMany wCfg2 {} (("a", 0) :: ([("b", 1)] ++ [("c", 2)]))
          (HttpResult.success (7:Nat) { status := 200 })).evictions = 1)
    ∧ ((3:Int) ≤ 0 + wCfg2.ttl + wCfg2.staleWhileRevalidate
      ∧ "b" ∉ (lruSet wCfg2
          (lruGet (lruSetMany wCfg2 {} (("a", 0) :: ("b", 1) :: [])
            (HttpResult.success (7:Nat) { status := 200 })) "a" 3).2 "c"
          (HttpResult.success (7:Nat) { status := 200 }) 2 {}).entries.map
            Prod.fst) :=
  ⟨⟨by decide,
    (lru_eviction_order.1 Nat wCfg2 "a" 0 [("b", 1)] "c" 2 7 { status := 200 }
      (by decide) (by decide) (by decide)).1⟩,
   ⟨by decide,
    (lru_eviction_order.2 Nat wCfg2 "a" "b" 0 1 [] "c" 2 3 7 { status := 200 }
      (by decide) (by decide) (by decide) (by decide) (by decide)).2.2.2⟩⟩

/-! ## C7: backoff calculator -/

/-- Counterexample to C7 as stated: the code never clamps the result at
0 — with `jitterFactor = 2` (outside the documented `[0,1]` range) and
an adversarial random sample 0, `calculateBackoff(0, 1000, 30000, 2)`
evaluates to `-1000 < 0`. -/
theorem calculateBackoff_counterexample :
    calculateBackoff 0 1000 30000 2 0 = -1000
    ∧ calculateBackoff 0 1000 30000 2 0 < 0 := by
  have h : calculateBackoff 0 1000 30000 2 0 = -1000 := by
    norm_num [calculateBackoff, jsRound]
  exact ⟨h, by rw [h]; norm_num⟩

/-- C7 (amended: the result is never negative for jitter factors in the
documented `[0,1]` range, with nonnegative delays and a random sample in
`[0,1]`; outside that range the code does not clamp at 0).  With
`jitterFactor = 0` the result equals `round(min(baseDelay·2^attempt,
maxDelay))` independently of the random sample (full determinism), the
result is an integer by construction (`Math.round`, modelled by the `ℤ`
codomain), and the three concrete values of the spec hold. -/
theorem calculateBackoff_spec :
    (∀ (attempt : ℕ) (base max r : ℚ),
      calculateBackoff attempt base max 0 r = jsRound (min (base * 2 ^ attempt) max))
    ∧ (∀ (attempt : ℕ) (base max r r' : ℚ),
      calculateBackoff attempt base max 0 r = calculateBackoff attempt base max 0 r')
    ∧ (∀ (attempt : ℕ) (base max jitter r : ℚ),
      0 ≤ base → 0 ≤ max → 0 ≤ jitter → jitter ≤ 1 → 0 ≤ r → r ≤ 1 →
      0 ≤ calculateBackoff attempt base max jitter r)
    ∧ (∀ r : ℚ, calculateBackoff 0 1000 30000 0 r = 1000)
    ∧ (∀ r : ℚ, calculateBackoff 1 1000 30000 0 r = 2000)
    ∧ (∀ r : ℚ, calculateBackoff 10 1000 5000 0 r = 5000) := by
  have hbase : ∀ (attempt : ℕ) (base max r : ℚ),
      calculateBackoff attempt base max 0 r
        = jsRound (min (base * 2 ^ attempt) max) := by
    intro attempt base max r
    unfold calculateBackoff
    ring_nf
  refine ⟨hbase, fun attempt base max r r' => by rw [hbase, hbase], ?_, ?_, ?_, ?_⟩
  · intro attempt base max jitter r hb hm hj0 hj1 hr0 hr1
    unfold calculateBackoff jsRound
    have hc : 0 ≤ min (base * 2 ^ attempt) max :=
      le_min (mul_nonneg hb (by positivity)) hm
    have hoff : -(min (base * 2 ^ attempt) max * jitter)
        ≤ (r * 2 - 1) * (min (base * 2 ^ attempt) max * jitter) := by
      have h1 : -1 ≤ r * 2 - 1 := by linarith
      have h2 : 0 ≤ min (base * 2 ^ attempt) max * jitter :=
        mul_nonneg hc hj0
      nlinarith
    have hjc : min (base * 2 ^ attempt) max * jitter
        ≤ min (base * 2 ^ attempt) max := by nlinarith
    refine Int.le_floor.2 ?_
    push_cast
    linarith
  · intro r
    rw [hbase]
    norm_num [jsRound]
  · intro r
    rw [hbase]
    norm_num [jsRound]
  · intro r
    rw [hbase]
    norm_num [jsRound]

/-- Witness for C7 at concrete inputs. -/
theorem calculateBackoff_spec_witness :
    ((0:ℚ) ≤ 1000 ∧ (0:ℚ) ≤ 30000 ∧ (0:ℚ) ≤ 1 ∧ (1:ℚ) ≤ 1
      ∧ (0:ℚ) ≤ 0 ∧ (0:ℚ) ≤ 1
      ∧ 0 ≤ calculateBackoff 3 1000 30000 1 0)
    ∧ calculateBackoff 0 1000 30000 0 (1/3) = 1000 :=
  ⟨⟨by norm_num, by norm_num, by norm_num, by norm_num, by norm_num, by norm_num,
    calculateBackoff_spec.2.2.1 3 1000 30000 1 0 (by norm_num) (by norm_num)
      (by norm_num) (by norm_num) (by norm_num) (by norm_num)⟩,
    calculateBackoff_spec.2.2.2.1 (1/3)⟩

/-! ## C9: Cache-Control numeric directives -/

/-- `getLast?` of a cons, as a last-writer-wins `Option.or`. -/
theorem getLast?_cons_or {α : Type} (a : α) (l : List α) :
    (a :: l).getLast? = Option.or l.getLast? (some a) := by
  cases l with
  | nil => simp
  | cons b l2 =>
    rw [List.getLast?_cons_cons]
    cases hx : (b :: l2).getLast? with
    | none =>
      have hs : ((b :: l2).getLast?).isSome := by
        simp [List.getLast?_isSome]
      rw [hx] at hs
      simp at hs
    | some v => simp [Option.or]

/-- One loop iteration updates the pending `maxAge` by the part's
`max-age=` contribution, the contribution winning when present. -/
theorem cacheControlStep_maxAge
    (acc : CacheControlDirectives × Option Int × Option Int) (part : String) :
    (cacheControlStep acc part).2.1 = Option.or (maxAgeEffect part) acc.2.1 := by
  simp only [cacheControlStep, maxAgeEffect]
  by_cases h1 : jsTrim part = "no-store"
  · have hp : jsStartsWith "no-store" "max-age=" = false := by decide
    simp [h1, hp]
  · by_cases h2 : jsTrim part = "no-cache"
    · have hp : jsStartsWith "no-cache" "max-age=" = false := by decide
      simp [h1, h2, hp]
    · by_cases h3 : jsTrim part = "private"
      · have hp : jsStartsWith "private" "max-age=" = false := by decide
        simp [h1, h2, h3, hp]
      · by_cases h4 : jsTrim part = "public"
        · have hp : jsStartsWith "public" "max-age=" = false := by decide
          simp [h1, h2, h3, h4, hp]
        · by_cases h5 : jsTrim part = "must-revalidate"
          · have hp : jsStartsWith "must-revalidate" "max-age=" = false := by
              decide
            simp [h1, h2, h3, h4, h5, hp]
          · by_cases h6 : jsTrim part = "immutable"
            · have hp : jsStartsWith "immutable" "max-age=" = false := by decide
              simp [h1, h2, h3, h4, h5, h6, hp]
            · by_cases h7 : jsStartsWith (jsTrim part) "max-age=" = true
              · cases hv : jsParseIntDec (jsSlice (jsTrim part) 8) with
                | none => simp [h1, h2, h3, h4, h5, h6, h7, hv]
                | some v => simp [h1, h2, h3, h4, h5, h6, h7, hv]
              · by_cases h8 : jsStartsWith (jsTrim part) "s-maxage=" = true
                · cases hv : jsParseIntDec (jsSlice (jsTrim part) 9) with
                  | none => simp [h1, h2, h3, h4, h5, h6, h7, h8, hv]
                  | some v => simp [h1, h2, h3, h4, h5, h6, h7, h8, hv]
                · simp [h1, h2, h3, h4, h5, h6, h7, h8]

/-- One loop iteration updates the pending `sMaxAge` by the part's
`s-maxage=` contribution. -/
theorem cacheControlStep_sMaxAge
    (acc : CacheControlDirectives × Option Int × Option Int) (part : String) :
    (cacheControlStep acc part).2.2 = Option.or (sMaxAgeEffect part) acc.2.2 := by
  simp only [cacheControlStep, sMaxAgeEffect]
  by_cases h1 : jsTrim part = "no-store"
  · have hp : jsStartsWith "no-store" "max-age=" = false := by decide
    have hq : jsStartsWith "no-store" "s-maxage=" = false := by decide
    simp [h1, hp, hq]
  · by_cases h2 : jsTrim part = "no-cache"
    · have hp : jsStartsWith "no-cache" "max-age=" = false := by decide
      have hq : jsStartsWith "no-cache" "s-maxage=" = false := by decide
      simp [h1, h2, hp, hq]
    · by_cases h3 : jsTrim part = "private"
      · have hp : jsStartsWith "private" "max-age=" = false := by decide
        have hq : jsStartsWith "private" "s-maxage=" = false := by decide
        simp [h1, h2, h3, hp, hq]
      · by_cases h4 : jsTrim part = "public"
        · have hp : jsStartsWith "public" "max-age=" = false := by decide
          have hq : jsStartsWith "public" "s-maxage=" = false := by decide
          simp [h1, h2, h3, h4, hp, hq]
        · by_cases h5 : jsTrim part = "must-revalidate"
          · have hp : jsStartsWith "must-revalidate" "max-age=" = false := by
              decide
            have hq : jsStartsWith "must-revalidate" "s-maxage=" = false := by
              decide
            simp [h1, h2, h3, h4, h5, hp, hq]
          · by_cases h6 : jsTrim part = "immutable"
            · have hp : jsStartsWith "immutable" "max-age=" = false := by decide
              have hq : jsStartsWith "immutable" "s-maxage=" = false := by
                decide
              simp [h1, h2, h3, h4, h5, h6, hp, hq]
            · by_cases h7 : jsStartsWith (jsTrim part) "max-age=" = true
              · cases hv : jsParseIntDec (jsSlice (jsTrim part) 8) with
                | none => simp [h1, h2, h3, h4, h5, h6, h7, hv]
                | some v => simp [h1, h2, h3, h4, h5, h6, h7, hv]
              · by_cases h8 : jsStartsWith (jsTrim part) "s-maxage=" = true
                · cases hv : jsParseIntDec (jsSlice (jsTrim part) 9) with
                  | none => simp [h1, h2, h3, h4, h5, h6, h7, h8, hv]
                  | some v => simp [h1, h2, h3, h4, h5, h6, h7, h8, hv]
                · simp [h1, h2, h3, h4, h5, h6, h7, h8]

/-- The folded loop's pending `maxAge` is the last `max-age=`
contribution of the parts, falling back to the accumulator. -/
theorem foldl_cacheControlStep_maxAge :
    ∀ (parts : List String)
      (acc : CacheControlDirectives × Option Int × Option Int),
    (parts.foldl cacheControlStep acc).2.1
      = Option.or (parts.filterMap maxAgeEffect).getLast? acc.2.1 := by
  intro parts
  induction parts with
  | nil => intro acc; simp
  | cons p ps ih =>
    intro acc
    rw [List.foldl_cons, ih, cacheControlStep_maxAge]
    cases hE : maxAgeEffect p with
    | none => simp [List.filterMap_cons, hE]
    | some v =>
      simp only [List.filterMap_cons, hE, getLast?_cons_or]
      cases hG : (ps.filterMap maxAgeEffect).getLast? <;> simp [Option.or]

/-- The folded loop's pending `sMaxAge`, analogously. -/
theorem foldl_cacheControlStep_sMaxAge :
    ∀ (parts : List String)
      (acc : CacheControlDirectives × Option Int × Option Int),
    (parts.foldl cacheControlStep acc).2.2
      = Option.or (parts.filterMap sMaxAgeEffect).getLast? acc.2.2 := by
  intro parts
  induction parts with
  | nil => intro acc; simp
  | cons p ps ih =>
    intro acc
    rw [List.foldl_cons, ih, cacheControlStep_sMaxAge]
    cases hE : sMaxAgeEffect p with
    | none => simp [List.filterMap_cons, hE]
    | some v =>
      simp only [List.filterMap_cons, hE, getLast?_cons_or]
      cases hG : (ps.filterMap sMaxAgeEffect).getLast? <;> simp [Option.or]

/-- Characterization of the parsed `maxAge` for every header: the last
`max-age=` contribution among the lowered, comma-split, trimmed parts,
absent when no part contributes. -/
theorem parseCacheControl_maxAge_char (h : String) :
    (parseCacheControl (some h)).maxAge
      = ((jsSplit ',' (jsToLower h)).filterMap maxAgeEffect).getLast? := by
  simp only [parseCacheControl]
  by_cases hemp : h = ""
  · rw [if_pos hemp, hemp]
    decide
  · rw [if_neg hemp]
    simp only [foldl_cacheControlStep_maxAge]
    simp

/-- Characterization of the parsed `sMaxAge`, analogously. -/
theorem parseCacheControl_sMaxAge_char (h : String) :
    (parseCacheControl (some h)).sMaxAge
      = ((jsSplit ',' (jsToLower h)).filterMap sMaxAgeEffect).getLast? := by
  simp only [parseCacheControl]
  by_cases hemp : h = ""
  · rw [if_pos hemp, hemp]
    decide
  · rw [if_neg hemp]
    simp only [foldl_cacheControlStep_sMaxAge]
    simp

/-- Counterexample to C9 as stated: the value token `12abc` is not a
well-formed number, yet `parseInt` accepts its numeric prefix, so the
directive is present with `maxAge = 12000` instead of absent. -/
theorem parseCacheControl_counterexample :
    specWellFormedNumberToken "12abc" = false
    ∧ (parseCacheControl (some "max-age=12abc")).maxAge = some 12000 := by
  constructor
  · decide
  · decide

/-- C9 (amended).  A numeric directive is treated as absent exactly when
`Number.parseInt` extracts no leading integer from its value token — a
token with trailing garbage such as `12abc` parses as its numeric prefix
`12` — and every extracted value is converted from seconds to
milliseconds.  For every header (the model's lowercasing is exact on
ASCII headers, hence the hypothesis): `maxAge`/`sMaxAge` equal the last
contribution among the lowered, comma-split, trimmed parts, where a
part contributes `parseInt(token) * 1000` iff it carries the prefix and
the token parses; in particular when every `max-age=`/`s-maxage=` token
is unparseable the field is absent, never zero.  The concrete conjuncts
exercise a single directive, a multi-directive uppercase header, a
malformed token, and a no-break-space-padded token that `parseInt`
accepts after skipping JavaScript whitespace. -/
theorem parseCacheControl_numeric_tokens :
    (∀ (h : String), (∀ c ∈ h.data, c.toNat < 128) →
      (parseCacheControl (some h)).maxAge
        = ((jsSplit ',' (jsToLower h)).filterMap maxAgeEffect).getLast?
      ∧ (parseCacheControl (some h)).sMaxAge
        = ((jsSplit ',' (jsToLower h)).filterMap sMaxAgeEffect).getLast?)
    ∧ (∀ (h : String), (∀ c ∈ h.data, c.toNat < 128) →
      (∀ part ∈ jsSplit ',' (jsToLower h), maxAgeEffect part = none) →
      (parseCacheControl (some h)).maxAge = none)
    ∧ (∀ (h : String), (∀ c ∈ h.data, c.toNat < 128) →
      (∀ part ∈ jsSplit ',' (jsToLower h), sMaxAgeEffect part = none) →
      (parseCacheControl (some h)).sMaxAge = none)
    ∧ (parseCacheControl (some "max-age=60")).maxAge = some 60000
    ∧ (parseCacheControl (some "Public, MAX-AGE=60")).maxAge = some 60000
    ∧ (parseCacheControl (some "Public, MAX-AGE=60")).«public» = true
    ∧ (parseCacheControl (some "max-age=abc")).maxAge = none
    ∧ (parseCacheControl (some (String.mk
        ['m', 'a', 'x', '-', 'a', 'g', 'e', '=', '\u00A0', '6', '0']))).maxAge
      = some 60000 := by
  refine ⟨fun h _ => ⟨parseCacheControl_maxAge_char h,
      parseCacheControl_sMaxAge_char h⟩,
    fun h _ hall => ?_, fun h _ hall => ?_,
    by decide, by decide, by decide, by decide, by decide⟩
  · rw [parseCacheControl_maxAge_char, List.filterMap_eq_nil_iff.mpr hall]
    rfl
  · rw [parseCacheControl_sMaxAge_char, List.filterMap_eq_nil_iff.mpr hall]
    rfl

/-- Witness for C9 on a concrete multi-directive uppercase header and a
header whose only numeric tokens are unparseable. -/
theorem parseCacheControl_numeric_tokens_witness :
    ((parseCacheControl (some "Public, MAX-AGE=12abc, S-MAXAGE=60")).maxAge
      = ((jsSplit ',' (jsToLower "Public, MAX-AGE=12abc, S-MAXAGE=60")).filterMap
          maxAgeEffect).getLast?
    ∧ (parseCacheControl (some "Public, MAX-AGE=12abc, S-MAXAGE=60")).sMaxAge
      = ((jsSplit ',' (jsToLower "Public, MAX-AGE=12abc, S-MAXAGE=60")).filterMap
          sMaxAgeEffect).getLast?)
    ∧ (parseCacheControl (some "max-age=, no-store")).maxAge = none :=
  ⟨parseCacheControl_numeric_tokens.1 "Public, MAX-AGE=12abc, S-MAXAGE=60"
      (by decide),
   parseCacheControl_numeric_tokens.2.1 "max-age=, no-store" (by decide)
      (by decide)⟩

/-! ## C3: circuit breaker state machine -/

/-- Consecutive failing calls from a `CLOSED` breaker: every call
invokes the operation, failures accumulate, and the state flips to
`OPEN` exactly when the threshold is reached. -/
theorem cbFailMany_closed (cfg : CBConfig) :
    ∀ (times : List ℤ) (cb : CircuitBreaker) (inv : Bool),
    cb.state = .CLOSED →
    cb.failures + times.length ≤ cfg.failureThreshold →
    (cbFailMany cfg (cb, inv) times).1.failures = cb.failures + times.length
    ∧ (cbFailMany cfg (cb, inv) times).2 = inv
    ∧ (cb.failures + times.length < cfg.failureThreshold →
        (cbFailMany cfg (cb, inv) times).1.state = .CLOSED)
    ∧ (cb.failures + times.length = cfg.failureThreshold → times ≠ [] →
        (cbFailMany cfg (cb, inv) times).1.state = .OPEN) := by
  intro times
  induction times with
  | nil =>
    intro cb inv hst _
    refine ⟨by simp [cbFailMany], by simp [cbFailMany],
      fun _ => by simpa [cbFailMany] using hst, fun _ h => absurd rfl h⟩
  | cons t rest ih =>
    intro cb inv hst hlen
    have hnotopen : ¬(cb.state = CBState.OPEN
        ∧ t - cb.lastFailureTime < cfg.recoveryTimeout) := by
      rw [hst]; rintro ⟨h, _⟩; cases h
    have hcb1 : (if cb.state = CBState.OPEN
        then { cb with state := CBState.HALF_OPEN } else cb) = cb := by
      rw [hst]; simp
    have hstep : cbExecute cfg cb t false =
        { final := cbOnFailure cfg cb t, invoked := true,
          stateAtCall := some cb.state, rejected := false } := by
      rw [cbExecute, if_neg hnotopen, hcb1]
      simp
    have hfold : cbFailMany cfg (cb, inv) (t :: rest)
        = cbFailMany cfg (cbOnFailure cfg cb t, inv && true) rest := by
      simp [cbFailMany, hstep]
    rw [hfold]
    simp only [List.length_cons] at hlen
    cases rest with
    | nil =>
      simp only [cbFailMany, List.foldl_nil]
      refine ⟨by simp [cbOnFailure], by simp, fun hlt => ?_, fun heq _ => ?_⟩
      · simp only [cbOnFailure]
        rw [hst]
        simp only [List.length_cons, List.length_nil] at hlt
        have : ¬(cfg.failureThreshold ≤ cb.failures + 1) := by omega
        simp [this]
      · simp only [cbOnFailure]
        simp only [List.length_cons, List.length_nil] at heq
        have : cfg.failureThreshold ≤ cb.failures + 1 := by omega
        simp [this]
    | cons t2 rest2 =>
      have hlen2 : cb.failures + 1 + (t2 :: rest2).length ≤ cfg.failureThreshold := by
        simp only [List.length_cons] at hlen ⊢
        omega
      have hstVal : (cbOnFailure cfg cb t).state = .CLOSED := by
        simp only [cbOnFailure]
        rw [hst]
        have : ¬(cfg.failureThreshold ≤ cb.failures + 1) := by
          simp only [List.length_cons] at hlen2
          omega
        simp [this]
      have hfails : (cbOnFailure cfg cb t).failures = cb.failures + 1 := by
        simp [cbOnFailure]
      obtain ⟨i1, i2, i3, i4⟩ := ih (cbOnFailure cfg cb t) (inv && true) hstVal
        (by rw [hfails]; simpa using hlen2)
      rw [hfails] at i1 i3 i4
      refine ⟨by rw [i1]; simp only [List.length_cons]; omega,
        by simpa using i2, fun hlt => ?_, fun heq _ => ?_⟩
      · apply i3
        simp only [List.length_cons] at hlt ⊢
        omega
      · apply i4 ?_ (by simp)
        simp only [List.length_cons] at heq ⊢
        omega

/-- Reachable breaker states that are `OPEN` or `HALF_OPEN` carry at
least `failureThreshold` accumulated failures. -/
theorem cbReachable_failures (cfg : CBConfig) (cb : CircuitBreaker)
    (hr : CBReachable cfg cb) (_hthr : 1 ≤ cfg.failureThreshold) :
    (cb.state = .OPEN ∨ cb.state = .HALF_OPEN) →
    cfg.failureThreshold ≤ cb.failures := by
  induction hr with
  | init => rintro (h | h) <;> cases h
  | step cb now b _hprev ih =>
    intro hst
    rw [cbExecute] at hst ⊢
    by_cases hrej : cb.state = CBState.OPEN
        ∧ now - cb.lastFailureTime < cfg.recoveryTimeout
    · rw [if_pos hrej] at hst ⊢
      exact ih hst
    · rw [if_neg hrej] at hst ⊢
      cases b with
      | true =>
        simp only [if_pos, cbOnSuccess] at hst
        rcases hst with h | h <;> cases h
      | false =>
        simp only [Bool.false_eq_true, if_false, cbOnFailure] at hst ⊢
        by_cases hth : cfg.failureThreshold ≤
            (if cb.state = CBState.OPEN
              then { cb with state := CBState.HALF_OPEN } else cb).failures + 1
        · simpa using hth
        · simp only [if_neg hth] at hst
          have hcbf : (if cb.state = CBState.OPEN
              then { cb with state := CBState.HALF_OPEN } else cb).failures
              = cb.failures := by
            by_cases ho : cb.state = CBState.OPEN <;> simp [ho]
          rw [hcbf] at hth
          have : cfg.failureThreshold ≤ cb.failures := by
        -- the surviving state is OPEN/HALF_OPEN only if it already was
            by_cases ho : cb.state = CBState.OPEN
            · exact ih (Or.inl ho)
            · simp only [ho, if_false] at hst
              exact ih (by tauto)
          omega

/-- C3.  (1) `failureThreshold ≥ 1` consecutive failed calls starting
from a fresh breaker leave it `OPEN` with `failures = threshold`, every
call having invoked the operation; (2) while `OPEN` within the recovery
window, `execute` returns the synthetic rejection and never invokes the
operation; (3) once `recoveryTimeout` has elapsed, the next call invokes
the operation in `HALF_OPEN`; (4) a successful call in any non-`OPEN`
state resets `failures` to 0 and closes the circuit; (5) `execute` is
atomic, so `HALF_OPEN` exists only during the recovery probe itself: a
probe call (reachable `OPEN` breaker, recovery window elapsed) whose
operation fails runs the operation in `HALF_OPEN` and reopens the
circuit without resetting the failure count — `failures` is incremented,
not zeroed — and restarts the recovery timer at the failure instant. -/
theorem circuitBreaker_state_machine :
    (∀ (cfg : CBConfig) (times : List ℤ),
      1 ≤ cfg.failureThreshold →
      times.length = cfg.failureThreshold →
      (cbFailMany cfg ({}, true) times).1.state = .OPEN
      ∧ (cbFailMany cfg ({}, true) times).1.failures = cfg.failureThreshold
      ∧ (cbFailMany cfg ({}, true) times).2 = true)
    ∧ (∀ (cfg : CBConfig) (cb : CircuitBreaker) (now : ℤ) (b : Bool),
      cb.state = .OPEN → now - cb.lastFailureTime < cfg.recoveryTimeout →
      cbExecute cfg cb now b
        = { final := cb, invoked := false, stateAtCall := none, rejected := true })
    ∧ (∀ (cfg : CBConfig) (cb : CircuitBreaker) (now : ℤ) (b : Bool),
      cb.state = .OPEN → cfg.recoveryTimeout ≤ now - cb.lastFailureTime →
      (cbExecute cfg cb now b).invoked = true
      ∧ (cbExecute cfg cb now b).stateAtCall = some .HALF_OPEN)
    ∧ (∀ (cfg : CBConfig) (cb : CircuitBreaker) (now : ℤ),
      cb.state ≠ .OPEN →
      (cbExecute cfg cb now true).invoked = true
      ∧ (cbExecute cfg cb now true).final.failures = 0
      ∧ (cbExecute cfg cb now true).final.state = .CLOSED)
    ∧ (∀ (cfg : CBConfig) (cb : CircuitBreaker) (now : ℤ),
      CBReachable cfg cb → 1 ≤ cfg.failureThreshold →
      cb.state = .OPEN → cfg.recoveryTimeout ≤ now - cb.lastFailureTime →
      (cbExecute cfg cb now false).invoked = true
      ∧ (cbExecute cfg cb now false).stateAtCall = some .HALF_OPEN
      ∧ (cbExecute cfg cb now false).final.state = .OPEN
      ∧ (cbExecute cfg cb now false).final.failures = cb.failures + 1
      ∧ (cbExecute cfg cb now false).final.lastFailureTime = now) := by
  refine ⟨?_, ?_, ?_, ?_, ?_⟩
  · intro cfg times hthr hlen
    have hne : times ≠ [] := by
      intro h
      rw [h] at hlen
      simp at hlen
      omega
    obtain ⟨h1, h2, _h3, h4⟩ := cbFailMany_closed cfg times {} true rfl
      (by simp [hlen])
    exact ⟨h4 (by simpa using hlen) hne, by simpa [hlen] using h1, h2⟩
  · intro cfg cb now b hst hwin
    rw [cbExecute, if_pos ⟨hst, hwin⟩]
  · intro cfg cb now b hst hel
    have hno : ¬(cb.state = CBState.OPEN
        ∧ now - cb.lastFailureTime < cfg.recoveryTimeout) := by
      rintro ⟨_, h⟩; omega
    rw [cbExecute, if_neg hno, hst]
    cases b <;> simp
  · intro cfg cb now hst
    have hno : ¬(cb.state = CBState.OPEN
        ∧ now - cb.lastFailureTime < cfg.recoveryTimeout) := by
      rintro ⟨h, _⟩; exact hst h
    rw [cbExecute, if_neg hno, if_neg hst]
    simp [cbOnSuccess]
  · intro cfg cb now hreach hthr hst hel
    have hfail : cfg.failureThreshold ≤ cb.failures :=
      cbReachable_failures cfg cb hreach hthr (Or.inl hst)
    have hno : ¬(cb.state = CBState.OPEN
        ∧ now - cb.lastFailureTime < cfg.recoveryTimeout) := by
      rintro ⟨_, h⟩; omega
    rw [cbExecute, if_neg hno, if_pos hst]
    simp only [Bool.false_eq_true, if_false, cbOnFailure]
    have : cfg.failureThreshold ≤ cb.failures + 1 := by omega
    simp [this]

/-- Witness for C3 at a concrete breaker (threshold 2, recovery 100);
the last conjunct exercises the failing recovery probe on a breaker made
reachable by two recorded failures. -/
theorem circuitBreaker_state_machine_witness :
    ((1 ≤ (2:ℕ) ∧ ([((5:ℤ)), 6]).length = 2
      ∧ (cbFailMany { failureThreshold := 2, recoveryTimeout := 100 }
          ({}, true) [5, 6]).1.state = .OPEN)
    ∧ (cbExecute { failureThreshold := 2, recoveryTimeout := 100 }
        { failures := 2, lastFailureTime := 6, state := .OPEN } 7 false
        = { final := { failures := 2, lastFailureTime := 6, state := .OPEN },
            invoked := false, stateAtCall := none, rejected := true })
    ∧ ((cbExecute { failureThreshold := 2, recoveryTimeout := 100 }
        { failures := 2, lastFailureTime := 6, state := .OPEN } 200 true).stateAtCall
        = some .HALF_OPEN)
    ∧ ((cbExecute { failureThreshold := 2, recoveryTimeout := 100 }
        { failures := 2, lastFailureTime := 6, state := .HALF_OPEN } 8 true).final.state
        = .CLOSED)
    ∧ ((cbExecute { failureThreshold := 2, recoveryTimeout := 100 }
        { failures := 2, lastFailureTime := 6, state := .OPEN } 200 false).stateAtCall
        = some .HALF_OPEN
      ∧ (cbExecute { failureThreshold := 2, recoveryTimeout := 100 }
        { failures := 2, lastFailureTime := 6, state := .OPEN } 200 false).final.state
        = .OPEN
      ∧ (cbExecute { failureThreshold := 2, recoveryTimeout := 100 }
        { failures := 2, lastFailureTime := 6, state := .OPEN } 200 false).final.failures
        = 2 + 1
      ∧ (cbExecute { failureThreshold := 2, recoveryTimeout := 100 }
        { failures := 2, lastFailureTime := 6, state := .OPEN } 200 false).final.lastFailureTime
        = 200)) := by
  have hreach : CBReachable { failureThreshold := 2, recoveryTimeout := 100 }
      { failures := 2, lastFailureTime := 6, state := .OPEN } := by
    have h0 : CBReachable { failureThreshold := 2, recoveryTimeout := 100 }
        ({} : CircuitBreaker) := CBReachable.init
    have h1 := CBReachable.step {} 5 false h0
    have h2 := CBReachable.step _ 6 false h1
    have he : (cbExecute { failureThreshold := 2, recoveryTimeout := 100 }
        (cbExecute { failureThreshold := 2, recoveryTimeout := 100 } {} 5 false).final
        6 false).final
        = { failures := 2, lastFailureTime := 6, state := .OPEN } := by decide
    rw [he] at h2
    exact h2
  have hprobe := circuitBreaker_state_machine.2.2.2.2
    { failureThreshold := 2, recoveryTimeout := 100 }
    { failures := 2, lastFailureTime := 6, state := .OPEN } 200 hreach
    (by decide) rfl (by decide)
  exact ⟨⟨by decide, by decide,
    (circuitBreaker_state_machine.1 { failureThreshold := 2, recoveryTimeout := 100 }
      [5, 6] (by decide) (by decide)).1⟩,
   circuitBreaker_state_machine.2.1 { failureThreshold := 2, recoveryTimeout := 100 }
      { failures := 2, lastFailureTime := 6, state := .OPEN } 7 false rfl (by decide),
   (circuitBreaker_state_machine.2.2.1 { failureThreshold := 2, recoveryTimeout := 100 }
      { failures := 2, lastFailureTime := 6, state := .OPEN } 200 true rfl (by decide)).2,
   (circuitBreaker_state_machine.2.2.2.1 { failureThreshold := 2, recoveryTimeout := 100 }
      { failures := 2, lastFailureTime := 6, state := .HALF_OPEN } 8
      (by intro h; cases h)).2.2,
   hprobe.2.1, hprobe.2.2.1, hprobe.2.2.2.1, hprobe.2.2.2.2⟩

/-! ## C8: retry strategy, default eligibility rule -/

/-- The spec's ineligibility condition implies the code's
`shouldRetry` returning false (the code is ineligible in strictly more
cases, e.g. a literal status 0, which is falsy). -/
theorem specIneligible_code (maxRetries : ℕ) (retryOn : List Int)
    (e : HttpError) (attempt : ℕ)
    (h : specIneligible maxRetries retryOn e attempt) :
    defaultShouldRetry maxRetries retryOn e attempt = false := by
  unfold defaultShouldRetry
  rcases h with ⟨h1, h2, h3⟩ | h4
  · by_cases ha : attempt ≥ maxRetries
    · simp [ha]
    · rw [if_neg ha]
      rw [if_neg (by simp [h1, h2])]
      cases hst : e.status with
      | none => rfl
      | some st =>
        show (if st ≠ 0 then retryOn.contains st else false) = false
        by_cases hz : st ≠ 0
        · rw [if_pos hz]
          simpa using h3 st hst
        · simp [hz]
  · simp [show attempt ≥ maxRetries from h4]

/-- Invariants of the retry loop from any attempt index (stated with an
explicit fuel `maxRetries + 1 - attempt` for the induction): at least
one more invocation happens, at most `maxRetries + 1` in total, the
result returned is the output of the last executor invocation (never a
synthetic error), success returns immediately, and a returned failure
was ineligible at its attempt. -/
theorem retryLoop_spec {T : Type} (maxRetries : ℕ) (retryOn : List Int)
    (results : ℕ → HttpResult T) :
    ∀ (fuel attempt : ℕ) (last : Option (HttpResult T)),
    maxRetries + 1 - attempt = fuel →
    attempt ≤ maxRetries →
    attempt < (retryLoop maxRetries retryOn results attempt last).2
    ∧ (retryLoop maxRetries retryOn results attempt last).2 ≤ maxRetries + 1
    ∧ (retryLoop maxRetries retryOn results attempt last).1
        = results ((retryLoop maxRetries retryOn results attempt last).2 - 1)
    ∧ ((results attempt).isSuccess →
        retryLoop maxRetries retryOn results attempt last
          = (results attempt, attempt + 1))
    ∧ (∀ (e : HttpError) (resp : Option ResponseMeta),
        (retryLoop maxRetries retryOn results attempt last).1
          = .failure e resp →
        defaultShouldRetry maxRetries retryOn e
          ((retryLoop maxRetries retryOn results attempt last).2 - 1) = false) := by
  intro fuel
  induction fuel with
  | zero => intro attempt last hf hle; omega
  | succ n ihn =>
    intro attempt last hf hle
    cases hres : results attempt with
    | success d m =>
      have hstep : retryLoop maxRetries retryOn results attempt last
          = (HttpResult.success d m, attempt + 1) := by
        rw [retryLoop, if_pos hle, hres]
      rw [hstep]
      refine ⟨by omega, by omega, by simp [hres], fun _ => rfl,
        fun e2 r2 heq => ?_⟩
      rw [show (HttpResult.success d m, attempt + 1).1
        = HttpResult.success d m from rfl] at heq
      cases heq
    | failure e resp =>
      cases helig : defaultShouldRetry maxRetries retryOn e attempt with
      | false =>
        have hstep : retryLoop maxRetries retryOn results attempt last
            = (HttpResult.failure e resp, attempt + 1) := by
          rw [retryLoop, if_pos hle, hres]
          simp [helig]
        rw [hstep]
        refine ⟨by omega, by omega, by simp [hres],
          fun hs => by simp [HttpResult.isSuccess] at hs, fun e2 r2 heq => ?_⟩
        rw [show (HttpResult.failure e resp, attempt + 1).1
          = HttpResult.failure e resp from rfl] at heq
        cases heq
        simpa using helig
      | true =>
        have hlt : attempt < maxRetries := by
          by_contra hc
          push_neg at hc
          rw [defaultShouldRetry, if_pos (by omega : attempt ≥ maxRetries)]
            at helig
          cases helig
        have hstep : retryLoop maxRetries retryOn results attempt last
            = retryLoop maxRetries retryOn results (attempt + 1)
                (some (HttpResult.failure e resp)) := by
          rw [retryLoop, if_pos hle, hres]
          simp [helig]
        rw [hstep]
        obtain ⟨i1, i2, i3, _i4, i5⟩ := ihn (attempt + 1)
          (some (HttpResult.failure e resp)) (by omega) (by omega)
        exact ⟨by omega, i2, i3,
          fun hs => by simp [HttpResult.isSuccess] at hs, i5⟩

/-- If every executor result before attempt `i` is an eligible failure,
the loop reaches attempt `i`. -/
theorem retryLoop_advance {T : Type} (maxRetries : ℕ) (retryOn : List Int)
    (results : ℕ → HttpResult T) :
    ∀ (i : ℕ), i ≤ maxRetries →
    (∀ j, j < i → ∃ e resp, results j = HttpResult.failure e resp
        ∧ defaultShouldRetry maxRetries retryOn e j = true) →
    ∃ last, retryLoop maxRetries retryOn results 0 none
        = retryLoop maxRetries retryOn results i last := by
  intro i
  induction i with
  | zero => exact fun _ _ => ⟨none, rfl⟩
  | succ nn ihn =>
    intro hle hpref
    obtain ⟨last, hlast⟩ := ihn (by omega) (fun j hj => hpref j (by omega))
    obtain ⟨e, resp, hres, helig⟩ := hpref nn (by omega)
    refine ⟨some (HttpResult.failure e resp), ?_⟩
    rw [hlast, retryLoop, if_pos (by omega : nn ≤ maxRetries), hres]
    simp [helig]

/-- C8.  With the default eligibility rule: the executor runs between 1
and `maxRetries + 1` times; the returned value is always the output of
the last executor invocation (never a synthetic exhaustion error); a
first-attempt success is returned immediately after exactly one
invocation; a returned failure was ineligible at its final attempt;
whenever the loop reaches an attempt whose failing result is ineligible
in the spec's sense (error not NETWORK/TIMEOUT and status not in
`retryOn`, or no attempts remaining), that very result is returned
unchanged; and a success at *any* reached attempt `i` (every earlier
attempt an eligible failure) is returned immediately with exactly
`i + 1` invocations — no further executor calls. -/
theorem retryStrategy_execute_spec :
    ∀ (T : Type) (maxRetries : ℕ) (retryOn : List Int)
      (results : ℕ → HttpResult T),
    (1 ≤ (retryExecute maxRetries retryOn results).2
      ∧ (retryExecute maxRetries retryOn results).2 ≤ maxRetries + 1)
    ∧ (retryExecute maxRetries retryOn results).1
        = results ((retryExecute maxRetries retryOn results).2 - 1)
    ∧ ((results 0).isSuccess →
        retryExecute maxRetries retryOn results = (results 0, 1))
    ∧ (∀ (e : HttpError) (resp : Option ResponseMeta),
        (retryExecute maxRetries retryOn results).1 = .failure e resp →
        defaultShouldRetry maxRetries retryOn e
          ((retryExecute maxRetries retryOn results).2 - 1) = false)
    ∧ (∀ (i : ℕ), i ≤ maxRetries →
        (∀ j, j < i → ∃ e resp, results j = HttpResult.failure e resp
          ∧ defaultShouldRetry maxRetries retryOn e j = true) →
        ∀ (e : HttpError) (resp : Option ResponseMeta),
        results i = .failure e resp →
        specIneligible maxRetries retryOn e i →
        retryExecute maxRetries retryOn results = (results i, i + 1))
    ∧ (∀ (i : ℕ), i ≤ maxRetries →
        (∀ j, j < i → ∃ e resp, results j = HttpResult.failure e resp
          ∧ defaultShouldRetry maxRetries retryOn e j = true) →
        (results i).isSuccess →
        retryExecute maxRetries retryOn results = (results i, i + 1)) := by
  intro T maxRetries retryOn results
  obtain ⟨h1, h2, h3, h4, h5⟩ := retryLoop_spec maxRetries retryOn results
    (maxRetries + 1) 0 none (by omega) (by omega)
  refine ⟨⟨by simpa [retryExecute] using h1, by simpa [retryExecute] using h2⟩,
    by simpa [retryExecute] using h3,
    fun hs => by simpa [retryExecute] using h4 hs,
    fun e resp heq => by simpa [retryExecute] using h5 e resp heq,
    ?_, ?_⟩
  · intro i hi hpref e resp hres hspec
    obtain ⟨last, hadv⟩ := retryLoop_advance maxRetries retryOn results i hi hpref
    rw [retryExecute, hadv, retryLoop, if_pos hi, hres]
    have hcode := specIneligible_code maxRetries retryOn e i hspec
    simp [hcode, hres]
  · intro i hi hpref hsucc
    obtain ⟨last, hadv⟩ := retryLoop_advance maxRetries retryOn results i hi hpref
    obtain ⟨_, _, _, j4, _⟩ := retryLoop_spec maxRetries retryOn results
      (maxRetries + 1 - i) i last rfl hi
    rw [retryExecute, hadv, j4 hsucc]

/-- Witness for C8: an immediate success, a first-attempt non-retryable
400 failure, and a retryable 500 failure followed by a second-attempt
success that stops the loop after exactly two invocations. -/
theorem retryStrategy_execute_spec_witness :
    (retryExecute 3 [500] (fun _ => HttpResult.success (7:Nat) { status := 200 })
      = (HttpResult.success 7 { status := 200 }, 1))
    ∧ (retryExecute 3 [500]
        (fun _ => (HttpResult.failure
          { code := .SERVER_ERROR, status := some 400 } none : HttpResult Nat))
      = (HttpResult.failure { code := .SERVER_ERROR, status := some 400 } none, 1))
    ∧ (retryExecute 3 [500]
        (fun n => if n = 0
          then (HttpResult.failure
            { code := .SERVER_ERROR, status := some 500 } none : HttpResult Nat)
          else HttpResult.success 7 { status := 200 })
      = (HttpResult.success 7 { status := 200 }, 2)) :=
  ⟨(retryStrategy_execute_spec Nat 3 [500]
      (fun _ => HttpResult.success 7 { status := 200 })).2.2.1 (by decide),
   (retryStrategy_execute_spec Nat 3 [500]
      (fun _ => HttpResult.failure
        { code := .SERVER_ERROR, status := some 400 } none)).2.2.2.2.1 0
      (by omega) (by omega) { code := .SERVER_ERROR, status := some 400 } none
      rfl (Or.inl ⟨by decide, by decide, by intro st hst; cases hst; decide⟩),
   (retryStrategy_execute_spec Nat 3 [500]
      (fun n => if n = 0
        then HttpResult.failure { code := .SERVER_ERROR, status := some 500 } none
        else HttpResult.success 7 { status := 200 })).2.2.2.2.2 1
      (by omega)
      (fun j hj => by
        have hj0 : j = 0 := by omega
        subst hj0
        exact ⟨{ code := .SERVER_ERROR, status := some 500 }, none, rfl, by decide⟩)
      (by decide)⟩

/-! ## C4: request deduplicator -/

theorem adel_sublist [DecidableEq κ] (l : List (κ × α)) (k : κ) :
    (adel l k).Sublist l := by
  induction l with
  | nil => simp [adel]
  | cons p rest ih =>
    obtain ⟨k1, v1⟩ := p
    by_cases h : k1 = k
    · simp [adel, h]
    · simpa [adel, h] using ih.cons₂ (k1, v1)

theorem mem_adel_of_ne [DecidableEq κ] {l : List (κ × α)} {k k2 : κ} {v : α}
    (hne : k2 ≠ k) (hm : (k2, v) ∈ l) : (k2, v) ∈ adel l k := by
  induction l with
  | nil => simp at hm
  | cons p rest ih =>
    obtain ⟨k1, v1⟩ := p
    rcases List.mem_cons.1 hm with h | h
    · cases h
      simp [adel, hne]
    · by_cases hk : k1 = k
      · simpa [adel, hk] using h
      · simp [adel, hk, ih h]

theorem not_mem_adel_self [DecidableEq κ] {l : List (κ × α)} {k : κ} {v : α}
    (hnodup : (l.map Prod.fst).Nodup) : (k, v) ∉ adel l k := by
  intro hm
  have h := alookup_adel_self l k hnodup
  rw [alookup_eq_none_iff] at h
  exact h (by exact List.mem_map_of_mem Prod.fst hm)

theorem binding_unique [DecidableEq κ] {l : List (κ × α)} {k : κ} {v1 v2 : α}
    (hnodup : (l.map Prod.fst).Nodup)
    (h1 : (k, v1) ∈ l) (h2 : (k, v2) ∈ l) : v1 = v2 := by
  induction l with
  | nil => simp at h1
  | cons p rest ih =>
    obtain ⟨k1, w⟩ := p
    simp only [List.map_cons, List.nodup_cons] at hnodup
    rcases List.mem_cons.1 h1 with ha | ha <;> rcases List.mem_cons.1 h2 with hb | hb
    · cases ha; cases hb; rfl
    · cases ha
      exact absurd (List.mem_map_of_mem Prod.fst hb) hnodup.1
    · cases hb
      exact absurd (List.mem_map_of_mem Prod.fst ha) hnodup.1
    · exact ih hnodup.2 ha hb

theorem alookup_of_mem_nodup [DecidableEq κ] {l : List (κ × α)} {k : κ} {v : α}
    (hnodup : (l.map Prod.fst).Nodup) (hm : (k, v) ∈ l) :
    alookup l k = some v := by
  cases h : alookup l k with
  | none =>
    rw [alookup_eq_none_iff] at h
    exact absurd (List.mem_map_of_mem Prod.fst hm) h
  | some w =>
    rw [binding_unique hnodup hm (alookup_mem h)]

theorem dedupInv_init : DedupInv {} := by
  refine ⟨by simp, by simp, by simp, by simp, fun k pid => by simp⟩

/-- `dedupe` and `settle` preserve the ledger invariant (`clear` does
not). -/
theorem dedupInv_step (s : DedupState) (ev : DedupEvent)
    (hinv : DedupInv s) (hnc : ev ≠ .clear) : DedupInv (dedupStep s ev) := by
  obtain ⟨hIF, hPid, hBound, hSettled, hMem⟩ := hinv
  cases ev with
  | clear => exact absurd rfl hnc
  | dedupe k =>
    cases hl : alookup s.inFlight k with
    | some pid => simpa [dedupStep, hl] using ⟨hIF, hPid, hBound, hSettled, hMem⟩
    | none =>
      have hknotin : k ∉ s.inFlight.map Prod.fst := (alookup_eq_none_iff _ _).1 hl
      have hset : aset s.inFlight k s.nextId = s.inFlight ++ [(k, s.nextId)] :=
        aset_append_of_not_mem _ hknotin
      simp only [dedupStep, hl]
      refine ⟨?_, ?_, ?_, ?_, ?_⟩
      · show ((aset s.inFlight k s.nextId).map Prod.fst).Nodup
        rw [hset]
        refine ((List.perm_append_singleton _ _).map Prod.fst).nodup_iff.2 ?_
        simpa using List.nodup_cons.2 ⟨hknotin, hIF⟩
      · show (((s.nextId, k) :: s.invocations).map Prod.fst).Nodup
        simp only [List.map_cons, List.nodup_cons]
        exact ⟨fun hmem => absurd (hBound _ hmem) (by omega), hPid⟩
      · show ∀ pid ∈ ((s.nextId, k) :: s.invocations).map Prod.fst,
          pid < s.nextId + 1
        intro pid hmem
        simp only [List.map_cons, List.mem_cons] at hmem
        rcases hmem with h | h
        · omega
        · have := hBound _ h; omega
      · show ∀ pid ∈ s.settled, pid < s.nextId + 1
        intro pid hmem
        have := hSettled _ hmem; omega
      · show ∀ (k2 : String) (pid : ℕ),
          (k2, pid) ∈ aset s.inFlight k s.nextId
            ↔ ((pid, k2) ∈ (s.nextId, k) :: s.invocations ∧ pid ∉ s.settled)
        intro k2 pid
        rw [hset]
        constructor
        · intro hm
          rcases List.mem_append.1 hm with h | h
          · obtain ⟨hi, hs2⟩ := (hMem k2 pid).1 h
            exact ⟨List.mem_cons_of_mem _ hi, hs2⟩
          · simp only [List.mem_singleton, Prod.mk.injEq] at h
            obtain ⟨hk, hp⟩ := h
            subst hk
            subst hp
            refine ⟨List.mem_cons_self _ _, fun hc => ?_⟩
            have := hSettled _ hc
            omega
        · rintro ⟨hi, hs2⟩
          rcases List.mem_cons.1 hi with h | h
          · simp only [Prod.mk.injEq] at h
            obtain ⟨h1, h2⟩ := h
            subst h1
            subst h2
            exact List.mem_append.2 (Or.inr (by simp))
          · exact List.mem_append.2 (Or.inl ((hMem k2 pid).2 ⟨h, hs2⟩))
  | settle pid success =>
    cases hl : alookup s.invocations pid with
    | none => simpa [dedupStep, hl] using ⟨hIF, hPid, hBound, hSettled, hMem⟩
    | some k =>
      by_cases hs : pid ∈ s.settled
      · simpa [dedupStep, hl, hs] using ⟨hIF, hPid, hBound, hSettled, hMem⟩
      · have hinv2 : (pid, k) ∈ s.invocations := alookup_mem hl
        simp only [dedupStep, hl, if_neg hs]
        refine ⟨?_, hPid, hBound, ?_, ?_⟩
        · exact ((adel_sublist s.inFlight k).map Prod.fst).nodup hIF
        · intro p hp
          rcases List.mem_cons.1 hp with h | h
          · subst h
            exact hBound _ (List.mem_map_of_mem Prod.fst hinv2)
          · exact hSettled _ h
        · intro k2 pid2
          have hkin : (k, pid) ∈ s.inFlight := (hMem k pid).2 ⟨hinv2, hs⟩
          constructor
          · intro hm
            have hm2 : (k2, pid2) ∈ s.inFlight :=
              (adel_sublist s.inFlight k).mem hm
            obtain ⟨hi, hs2⟩ := (hMem k2 pid2).1 hm2
            refine ⟨hi, ?_⟩
            simp only [List.mem_cons, not_or]
            refine ⟨fun hpe => ?_, hs2⟩
            subst hpe
            have hkk : k2 = k := binding_unique hPid hi hinv2
            subst hkk
            exact not_mem_adel_self hIF hm
          · rintro ⟨hi, hs2⟩
            simp only [List.mem_cons, not_or] at hs2
            obtain ⟨hne, hs3⟩ := hs2
            have hm2 : (k2, pid2) ∈ s.inFlight := (hMem k2 pid2).2 ⟨hi, hs3⟩
            have hkne : k2 ≠ k := by
              intro hkk
              subst hkk
              exact hne (binding_unique hIF hm2 hkin)
            exact mem_adel_of_ne hkne hm2

/-- The ledger invariant holds after any `clear`-free trace. -/
theorem dedupInv_run (events : List DedupEvent) (hcf : clearFree events) :
    DedupInv (dedupRun events) := by
  suffices h : ∀ (es : List DedupEvent) (s : DedupState), DedupInv s →
      DedupEvent.clear ∉ es → DedupInv (es.foldl dedupStep s) by
    exact h events {} dedupInv_init hcf
  intro es
  induction es with
  | nil => exact fun s hs _ => hs
  | cons e rest ih =>
    intro s hs hcf2
    simp only [List.mem_cons, not_or] at hcf2
    exact ih _ (dedupInv_step s e hs (fun hne => hcf2.1 hne.symm)) hcf2.2

/-- Under the invariant: unsettled invocations have pairwise distinct
keys, and the in-flight count equals the number of unsettled
invocations. -/
theorem dedupInv_conclusions (s : DedupState) (hinv : DedupInv s) :
    ((unsettledInvs s).map Prod.snd).Nodup
    ∧ getInFlightCount s = (unsettledInvs s).length := by
  obtain ⟨hIF, hPid, _hBound, _hSettled, hMem⟩ := hinv
  have hmemU : ∀ x : ℕ × String,
      x ∈ unsettledInvs s ↔ (x ∈ s.invocations ∧ x.1 ∉ s.settled) := by
    intro x
    simp [unsettledInvs, List.mem_filter]
  have hswap : ∀ x : ℕ × String,
      x ∈ unsettledInvs s ↔ (x.2, x.1) ∈ s.inFlight := by
    intro x
    rw [hmemU x, hMem x.2 x.1]
  have hUnodup : (unsettledInvs s).Nodup :=
    (List.filter_sublist _).nodup (List.Nodup.of_map Prod.fst hPid)
  have hIFnodup : s.inFlight.Nodup := List.Nodup.of_map Prod.fst hIF
  constructor
  · apply List.Nodup.map_on ?_ hUnodup
    intro x hx y hy hxy
    have hx2 : (x.2, x.1) ∈ s.inFlight := (hswap x).1 hx
    have hy2 : (y.2, y.1) ∈ s.inFlight := (hswap y).1 hy
    rw [hxy] at hx2
    have h1 : x.1 = y.1 := binding_unique hIF hx2 hy2
    exact Prod.ext h1 hxy
  · have hswapinj : Function.Injective
        (fun p : String × ℕ => (p.2, p.1)) := by
      intro a b h
      simp only [Prod.mk.injEq] at h
      exact Prod.ext h.2 h.1
    have hperm : (s.inFlight.map (fun p => (p.2, p.1))).Perm (unsettledInvs s) := by
      apply (List.perm_ext_iff_of_nodup (hIFnodup.map hswapinj) hUnodup).2
      intro a
      constructor
      · intro ha
        obtain ⟨p, hp, hpa⟩ := List.mem_map.1 ha
        subst hpa
        exact (hswap (p.2, p.1)).2 (by simpa using hp)
      · intro ha
        exact List.mem_map.2 ⟨(a.2, a.1), (hswap a).1 ha, by simp⟩
    have hlen := hperm.length_eq
    simpa [getInFlightCount] using hlen

/-- Counterexample to C4 as stated: `clear()` wipes the ledger without
cancelling outstanding promises.  After `dedupe "k"; clear()`, the
in-flight count is 0 while one promise for `"k"` is still unsettled;
a further `dedupe "k"` then starts a second concurrent executor for
the same key. -/
theorem deduplicator_clear_counterexample :
    ¬ ((unsettledInvs (dedupRun
        [.dedupe "k", .clear, .dedupe "k"])).map Prod.snd).Nodup
    ∧ getInFlightCount (dedupRun [.dedupe "k", .clear])
        ≠ (unsettledInvs (dedupRun [.dedupe "k", .clear])).length := by
  decide

/-- C4 (amended: the invariants hold on every trace that never calls
`clear()`; `clear()` empties the ledger while executors stay
outstanding, breaking both the one-executor-per-key bound and the
count equation).  (1) a `dedupe` whose key is in flight returns the
registered promise and changes nothing — in particular no second
executor runs; (2) a `dedupe` whose key is absent invokes a fresh
executor and returns its new promise; (3) settlement of a pending
promise — fulfilment and rejection alike — removes its key's ledger
entry, so a later `dedupe` for that key starts fresh by (2); (4) on
every clear-free trace, unsettled executor invocations have pairwise
distinct keys (at most one outstanding executor per key) and
`getInFlightCount` equals the number of unsettled invocations. -/
theorem deduplicator_spec :
    (∀ (s : DedupState) (k : String) (pid : ℕ),
      alookup s.inFlight k = some pid →
      dedupStep s (.dedupe k) = s ∧ dedupReturnedPid s k = pid)
    ∧ (∀ (s : DedupState) (k : String),
      alookup s.inFlight k = none →
      (dedupStep s (.dedupe k)).invocations = (s.nextId, k) :: s.invocations
      ∧ dedupReturnedPid s k = s.nextId)
    ∧ (∀ (es : List DedupEvent), clearFree es →
      ∀ (pid : ℕ) (k : String) (success : Bool),
      (pid, k) ∈ (dedupRun es).invocations →
      pid ∉ (dedupRun es).settled →
      alookup (dedupStep (dedupRun es) (.settle pid success)).inFlight k = none)
    ∧ (∀ (es : List DedupEvent), clearFree es →
      ((unsettledInvs (dedupRun es)).map Prod.snd).Nodup
      ∧ getInFlightCount (dedupRun es) = (unsettledInvs (dedupRun es)).length) := by
  refine ⟨?_, ?_, ?_, ?_⟩
  · intro s k pid hl
    exact ⟨by simp [dedupStep, hl], by simp [dedupReturnedPid, hl]⟩
  · intro s k hl
    exact ⟨by simp [dedupStep, hl], by simp [dedupReturnedPid, hl]⟩
  · intro es hcf pid k success hmem hset
    obtain ⟨hIF, hPid, _, _, _⟩ := dedupInv_run es hcf
    have hl : alookup (dedupRun es).invocations pid = some k :=
      alookup_of_mem_nodup hPid hmem
    simp only [dedupStep, hl, if_neg hset]
    exact alookup_adel_self _ _ hIF
  · intro es hcf
    exact dedupInv_conclusions _ (dedupInv_run es hcf)

/-- Witness for C4 at a one-request trace. -/
theorem deduplicator_spec_witness :
    (alookup ([("k", 0)] : List (String × ℕ)) "k" = some 0
      ∧ dedupStep
          { inFlight := [("k", 0)], settled := [], invocations := [(0, "k")],
            nextId := 1 } (.dedupe "k")
        = { inFlight := [("k", 0)], settled := [], invocations := [(0, "k")],
            nextId := 1 })
    ∧ (clearFree [DedupEvent.dedupe "k"]
      ∧ alookup (dedupStep (dedupRun [DedupEvent.dedupe "k"])
          (.settle 0 true)).inFlight "k" = none)
    ∧ (getInFlightCount (dedupRun [DedupEvent.dedupe "k"])
        = (unsettledInvs (dedupRun [DedupEvent.dedupe "k"])).length) :=
  ⟨⟨by decide,
    (deduplicator_spec.1
      { inFlight := [("k", 0)], settled := [], invocations := [(0, "k")],
        nextId := 1 } "k" 0 (by decide)).1⟩,
   ⟨by simp [clearFree],
    deduplicator_spec.2.2.1 [DedupEvent.dedupe "k"] (by simp [clearFree]) 0 "k"
      true (by decide) (by decide)⟩,
   (deduplicator_spec.2.2.2 [DedupEvent.dedupe "k"] (by simp [clearFree])).2⟩

/-! ## C6: cache key generation -/

theorem charListLe_total : ∀ (a b : List Char),
    charListLe a b = true ∨ charListLe b a = true := by
  intro a
  induction a with
  | nil => intro b; left; rfl
  | cons x xs ih =>
    intro b
    cases b with
    | nil => right; rfl
    | cons y ys =>
      by_cases hxy : x = y
      · subst hxy
        simpa [charListLe] using ih ys
      · rcases lt_trichotomy x y with h | h | h
        · left; simp [charListLe, hxy, h]
        · exact absurd h hxy
        · right
          have hyx : ¬ y = x := fun hh => hxy hh.symm
          simp [charListLe, hyx, h]

theorem charListLe_trans : ∀ (a b c : List Char), charListLe a b = true →
    charListLe b c = true → charListLe a c = true := by
  intro a
  induction a with
  | nil => intro b c _ _; rfl
  | cons x xs ih =>
    intro b c hab hbc
    cases b with
    | nil => simp [charListLe] at hab
    | cons y ys =>
      cases c with
      | nil => simp [charListLe] at hbc
      | cons z zs =>
        by_cases hxy : x = y <;> by_cases hyz : y = z
        · subst hxy; subst hyz
          simp only [charListLe, if_pos rfl] at hab hbc ⊢
          exact ih ys zs hab hbc
        · subst hxy
          simp only [charListLe, if_pos rfl, if_neg hyz] at hbc ⊢
          exact hbc
        · subst hyz
          simp only [charListLe, if_pos rfl, if_neg hxy] at hab ⊢
          exact hab
        · simp only [charListLe, if_neg hxy] at hab
          simp only [charListLe, if_neg hyz] at hbc
          have hab2 : x < y := by simpa using hab
          have hbc2 : y < z := by simpa using hbc
          have hxz : x < z := lt_trans hab2 hbc2
          simp [charListLe, ne_of_lt hxz, hxz]

theorem charListLe_antisymm : ∀ (a b : List Char), charListLe a b = true →
    charListLe b a = true → a = b := by
  intro a
  induction a with
  | nil =>
    intro b _ hba
    cases b with
    | nil => rfl
    | cons y ys => simp [charListLe] at hba
  | cons x xs ih =>
    intro b hab hba
    cases b with
    | nil => simp [charListLe] at hab
    | cons y ys =>
      by_cases hxy : x = y
      · subst hxy
        simp only [charListLe, if_pos rfl] at hab hba
        rw [ih ys hab hba]
      · simp only [charListLe, if_neg hxy] at hab
        have hyx : ¬ y = x := fun hh => hxy hh.symm
        simp only [charListLe, if_neg hyx] at hba
        have hab2 : x < y := by simpa using hab
        have hba2 : y < x := by simpa using hba
        exact absurd hba2 (asymm hab2)

theorem strLe_name_antisymm {a b : String} (h1 : strLe a b = true)
    (h2 : strLe b a = true) : a = b := by
  cases a with
  | mk la =>
    cases b with
    | mk lb =>
      rw [charListLe_antisymm la lb h1 h2]

/-- Two sorted association lists with pairwise-distinct names that are
permutations of one another are equal. -/
theorem sorted_nodup_keys_eq : ∀ (l1 l2 : List (String × QueryValue)),
    l1.Perm l2 → l1.Sorted paramLe → l2.Sorted paramLe →
    (l1.map Prod.fst).Nodup → l1 = l2 := by
  intro l1
  induction l1 with
  | nil =>
    intro l2 hp _ _ _
    exact (hp.symm.eq_nil).symm
  | cons a l1' ih =>
    intro l2 hp hs1 hs2 hnd
    cases l2 with
    | nil => simpa using hp.eq_nil
    | cons b l2' =>
      have hab : a = b := by
        by_contra hne
        have hamem : a ∈ b :: l2' := hp.subset (List.mem_cons_self a l1')
        have hbmem : b ∈ a :: l1' := hp.symm.subset (List.mem_cons_self b l2')
        have ha2 : a ∈ l2' := by
          rcases List.mem_cons.1 hamem with h | h
          · exact absurd h hne
          · exact h
        have hb1 : b ∈ l1' := by
          rcases List.mem_cons.1 hbmem with h | h
          · exact absurd h.symm hne
          · exact h
        have h1 : paramLe a b := (List.sorted_cons.1 hs1).1 b hb1
        have h2 : paramLe b a := (List.sorted_cons.1 hs2).1 a ha2
        have hname : a.1 = b.1 := strLe_name_antisymm h1 h2
        have hmem : a.1 ∈ l1'.map Prod.fst :=
          hname ▸ List.mem_map_of_mem Prod.fst hb1
        simp only [List.map_cons, List.nodup_cons] at hnd
        exact hnd.1 hmem
      subst hab
      rw [ih l2' hp.cons_inv (List.sorted_cons.1 hs1).2
        (List.sorted_cons.1 hs2).2
        (by simpa using (List.nodup_cons.1 (by simpa using hnd)).2)]

theorem append_cons_inj (c : Char) : ∀ (a b t1 t2 : List Char),
    c ∉ a → c ∉ b → a ++ c :: t1 = b ++ c :: t2 → a = b ∧ t1 = t2 := by
  intro a
  induction a with
  | nil =>
    intro b t1 t2 _ hcb heq
    cases b with
    | nil => exact ⟨rfl, by simpa using heq⟩
    | cons y bs =>
      simp only [List.nil_append, List.cons_append, List.cons.injEq] at heq
      exact absurd (heq.1 ▸ List.mem_cons_self y bs) (heq.1 ▸ hcb)
  | cons x as ih =>
    intro b t1 t2 hca hcb heq
    cases b with
    | nil =>
      simp only [List.cons_append, List.nil_append, List.cons.injEq] at heq
      exact absurd (heq.1 ▸ List.mem_cons_self x as) (fun hm => hca
        (by simp [heq.1]))
    | cons y bs =>
      simp only [List.cons_append, List.cons.injEq] at heq
      obtain ⟨hxy, hrest⟩ := heq
      subst hxy
      obtain ⟨h1, h2⟩ := ih bs t1 t2 (fun hm => hca (List.mem_cons_of_mem _ hm))
        (fun hm => hcb (List.mem_cons_of_mem _ hm)) hrest
      exact ⟨by rw [h1], h2⟩

theorem string_ext {s t : String} (h : s.data = t.data) : s = t := by
  cases s
  cases t
  exact congrArg String.mk h

/-- `join(',')` is injective on equal-length lists of comma-free
strings. -/
theorem jsJoin_inj : ∀ (l1 l2 : List String), l1.length = l2.length →
    (∀ x ∈ l1, ',' ∉ x.data) → (∀ x ∈ l2, ',' ∉ x.data) →
    jsJoin "," l1 = jsJoin "," l2 → l1 = l2 := by
  intro l1
  induction l1 with
  | nil =>
    intro l2 hlen _ _ _
    cases l2 with
    | nil => rfl
    | cons _ _ => simp at hlen
  | cons x xs ih =>
    intro l2 hlen h1 h2 heq
    cases l2 with
    | nil => simp at hlen
    | cons y ys =>
      cases xs with
      | nil =>
        cases ys with
        | nil => simpa [jsJoin] using heq
        | cons y2 ys2 => simp at hlen
      | cons x2 xs2 =>
        cases ys with
        | nil => simp at hlen
        | cons y2 ys2 =>
          have hdata := congrArg String.data heq
          simp only [jsJoin, String.data_append] at hdata
          simp only [List.append_assoc, List.singleton_append] at hdata
          obtain ⟨hxy, hrest⟩ := append_cons_inj ',' x.data y.data _ _
            (h1 x (by simp)) (h2 y (by simp)) hdata
          have hx : x = y := string_ext hxy
          have hreq : jsJoin "," (x2 :: xs2) = jsJoin "," (y2 :: ys2) :=
            string_ext hrest
          rw [hx, ih (y2 :: ys2) (by simpa using hlen)
            (fun z hz => h1 z (by simp [hz]))
            (fun z hz => h2 z (by simp [hz])) hreq]

/-- Counterexample to C6 as stated: the two requests differ in the
value of the vary-relevant header `A` (`"1,B:2"` versus `"1"`), yet
delimiter characters inside the header values make the sorted, joined
vary suffixes — and hence the whole keys — collide. -/
theorem cacheKey_counterexample :
    generateVaryAwareCacheKey wVaryC1 ["A", "B"]
      = generateVaryAwareCacheKey wVaryC2 ["A", "B"]
    ∧ headerValue wVaryC1 "A" ≠ headerValue wVaryC2 "A" := by
  decide

/-- C6 (amended: vary-key injectivity additionally requires the header
names to be free of `:` and `,` and the header values free of `,` —
values containing the delimiters can collide, as the counterexample
shows).  Part one: for requests with equal method and URL whose params
agree up to enumeration order after dropping undefined/null entries
(with distinct names), the generated keys are equal; headers do not
affect `generateCacheKey`.  Part two: under the delimiter conditions,
equal vary-aware keys force equal values for every vary-relevant
header — contrapositively, a differing vary-relevant header value
yields a different key. -/
theorem cacheKey_spec :
    (∀ (c1 c2 : RequestConfig) (ps1 ps2 : List (String × QueryValue)),
      c1.method = c2.method → c1.url = c2.url →
      c1.params = some ps1 → c2.params = some ps2 →
      (ps1.filter (fun kv => kv.2.keep)).Perm
        (ps2.filter (fun kv => kv.2.keep)) →
      ((ps1.filter (fun kv => kv.2.keep)).map Prod.fst).Nodup →
      generateCacheKey c1 = generateCacheKey c2)
    ∧ (∀ (c : RequestConfig) (hd : Option (List (String × String))),
      generateCacheKey { c with headers := hd } = generateCacheKey c)
    ∧ (∀ (hs : List String) (c1 c2 : RequestConfig),
      (∀ h ∈ hs, ':' ∉ h.data ∧ ',' ∉ h.data) →
      (∀ h ∈ hs, ',' ∉ (headerValue c1 h).data) →
      (∀ h ∈ hs, ',' ∉ (headerValue c2 h).data) →
      generateCacheKey c1 = generateCacheKey c2 →
      generateVaryAwareCacheKey c1 hs = generateVaryAwareCacheKey c2 hs →
      ∀ h ∈ hs, headerValue c1 h = headerValue c2 h) := by
  refine ⟨?_, ?_, ?_⟩
  · intro c1 c2 ps1 ps2 hm hu hp1 hp2 hperm hnd
    haveI hto : IsTotal (String × QueryValue) paramLe :=
      ⟨fun a b => charListLe_total a.1.data b.1.data⟩
    haveI htr : IsTrans (String × QueryValue) paramLe :=
      ⟨fun a b c => charListLe_trans a.1.data b.1.data c.1.data⟩
    have hsorted : (ps1.filter (fun kv => kv.2.keep)).insertionSort paramLe
        = (ps2.filter (fun kv => kv.2.keep)).insertionSort paramLe := by
      apply sorted_nodup_keys_eq
      · exact (List.perm_insertionSort _ _).trans
          (hperm.trans (List.perm_insertionSort _ _).symm)
      · exact List.sorted_insertionSort _ _
      · exact List.sorted_insertionSort _ _
      · exact ((List.perm_insertionSort paramLe _).map Prod.fst).nodup_iff.2 hnd
    simp only [generateCacheKey, hp1, hp2, hm, hu, hsorted]
  · intro c hd
    rfl
  · intro hs c1 c2 hnames hv1 hv2 hbase hkey h hmem
    have hne : hs.isEmpty = false := by
      cases hs with
      | nil => simp at hmem
      | cons a t => rfl
    simp only [generateVaryAwareCacheKey, hne, Bool.false_eq_true,
      if_false] at hkey
    rw [hbase] at hkey
    have hdata := congrArg String.data hkey
    simp only [String.data_append, List.append_assoc] at hdata
    have hdata2 := List.append_cancel_left hdata
    have hdata3 := List.append_cancel_left hdata2
    have hdata4 := List.append_cancel_right hdata3
    have hJ : jsJoin ","
        ((hs.map (fun hh => hh ++ ":" ++ headerValue c1 hh)).insertionSort
          strLeRel)
        = jsJoin ","
        ((hs.map (fun hh => hh ++ ":" ++ headerValue c2 hh)).insertionSort
          strLeRel) := string_ext hdata4
    have hcf : ∀ (c : RequestConfig),
        (∀ hh ∈ hs, ',' ∉ (headerValue c hh).data) →
        ∀ x ∈ (hs.map (fun hh => hh ++ ":" ++ headerValue c hh)).insertionSort
          strLeRel, ',' ∉ x.data := by
      intro c hv x hx
      have hx2 : x ∈ hs.map (fun hh => hh ++ ":" ++ headerValue c hh) :=
        (List.perm_insertionSort strLeRel _).subset hx
      obtain ⟨hh, hhmem, hhe⟩ := List.mem_map.1 hx2
      rw [← hhe]
      simp only [String.data_append, List.append_assoc, List.mem_append,
        List.singleton_append, List.mem_cons, not_or]
      exact ⟨(hnames hh hhmem).2, by decide, hv hh hhmem⟩
    have hsorted_eq := jsJoin_inj _ _
      (by simp [List.length_insertionSort])
      (hcf c1 hv1) (hcf c2 hv2) hJ
    have hperm : (hs.map (fun hh => hh ++ ":" ++ headerValue c1 hh)).Perm
        (hs.map (fun hh => hh ++ ":" ++ headerValue c2 hh)) :=
      (List.perm_insertionSort strLeRel _).symm.trans
        (hsorted_eq ▸ (List.perm_insertionSort strLeRel _))
    have hpmem : (h ++ ":" ++ headerValue c1 h)
        ∈ hs.map (fun hh => hh ++ ":" ++ headerValue c2 hh) :=
      hperm.subset (List.mem_map_of_mem _ hmem)
    obtain ⟨h2, hh2mem, hh2eq⟩ := List.mem_map.1 hpmem
    have hdataeq := congrArg String.data hh2eq
    simp only [String.data_append, List.append_assoc,
      List.singleton_append] at hdataeq
    obtain ⟨hnameq, hvaleq⟩ := append_cons_inj ':' h2.data h.data _ _
      (hnames h2 hh2mem).1 (hnames h hmem).1 hdataeq
    have hname : h2 = h := string_ext hnameq
    subst hname
    exact (string_ext hvaleq).symm

/-- Witness for C6 at concrete requests: reordered params give the same
key, and equal vary keys force equal vary header values. -/
theorem cacheKey_spec_witness :
    (generateCacheKey
        { method := "GET", url := "u",
          params := some [("a", .strv "1"), ("b", .strv "2"), ("c", .nullv)] }
      = generateCacheKey
        { method := "GET", url := "u",
          params := some [("b", .strv "2"), ("c", .undef), ("a", .strv "1")] })
    ∧ (headerValue
        { method := "GET", url := "u", headers := some [("A", "x")] } "A"
      = headerValue
        { method := "GET", url := "u", headers := some [("a", "x")] } "A") :=
  ⟨cacheKey_spec.1
      { method := "GET", url := "u",
        params := some [("a", .strv "1"), ("b", .strv "2"), ("c", .nullv)] }
      { method := "GET", url := "u",
        params := some [("b", .strv "2"), ("c", .undef), ("a", .strv "1")] }
      [("a", .strv "1"), ("b", .strv "2"), ("c", .nullv)]
      [("b", .strv "2"), ("c", .undef), ("a", .strv "1")]
      rfl rfl rfl rfl (by decide) (by decide),
    cacheKey_spec.2.2 ["A"]
      { method := "GET", url := "u", headers := some [("A", "x")] }
      { method := "GET", url := "u", headers := some [("a", "x")] }
      (by decide) (by decide) (by decide) rfl (by decide) "A" (by decide)⟩

/-! ## C5: `getKeysByPattern` vs the glob pattern matcher

`getKeysByPattern` does NOT call `matchGlobPattern`: it compiles the glob
into an anchored regex and tests every key.  The two matchers differ on
patterns longer than `MAX_PATTERN_LENGTH` (the regex path has no length
cap) and on values containing a line terminator (regex `.` refuses LF,
CR, U+2028 and U+2029, the recursive matcher has no such exclusion);
both walk UTF-16 code units, matched faithfully by the per-character
embedding only within the Basic Multilingual Plane.  Below we prove the
two matchers agree on capped patterns and line-terminator-free BMP keys,
and exhibit the length-cap disagreement. -/

/-- Consecutive `.*` atoms collapse: a second `anyStar` accepts nothing new. -/
theorem reStar_anyStar (r : List RegexAtom) : ∀ (v : List Char),
    reStar (.anyStar :: r) v = reStar r v := by
  intro v
  induction v with
  | nil => simp [reStar, reAccepts]
  | cons x v ih =>
    have h1 : reStar (.anyStar :: r) (x :: v)
        = (reStar r (x :: v) || ((!isLineTerminator x) && reStar r v)) := by
      rw [reStar, ih]; rw [reAccepts]
    rw [h1, reStar]
    cases hA : reAccepts r (x :: v) <;> cases hB : reStar r v <;>
      cases hx : isLineTerminator x <;> simp [reStar, hA, hB, hx]

/-- Dropping the leading stars of the pattern does not change the language
of the compiled regex after an `anyStar`. -/
theorem reStar_glob_dropWhile : ∀ (p : List Char) (v : List Char),
    reStar (globToRegex (p.dropWhile (fun x => x = '*'))) v
      = reStar (globToRegex p) v := by
  intro p
  induction p with
  | nil => intro v; rfl
  | cons c rest ih =>
    intro v
    by_cases hc : c = '*'
    · subst hc
      have hdw : ('*' :: rest).dropWhile (fun x => x = '*')
          = rest.dropWhile (fun x => x = '*') := by
        simp [List.dropWhile_cons]
      rw [hdw, ih v]
      have hg : globToRegex ('*' :: rest) = .anyStar :: globToRegex rest := by
        simp [globToRegex]
      rw [hg, reStar_anyStar]
    · have hdw : (c :: rest).dropWhile (fun x => x = '*') = c :: rest := by
        simp [List.dropWhile_cons, hc]
      rw [hdw]

/-- A bare trailing `.*` accepts every line-terminator-free value. -/
theorem reStar_nil_of_lt_free : ∀ (v : List Char),
    (∀ c ∈ v, isLineTerminator c = false) → reStar [] v = true := by
  intro v
  induction v with
  | nil => intro _; simp [reStar, reAccepts]
  | cons x v ih =>
    intro h
    have hx : isLineTerminator x = false := h x (List.mem_cons_self x v)
    rw [reStar]
    simp [reAccepts, hx, ih (fun c hc => h c (List.mem_cons_of_mem _ hc))]

/-- On wildcard-free patterns the compiled regex is exact string equality
(the same language as `matchGlobPattern`'s fast path). -/
theorem reAccepts_glob_no_wildcards : ∀ (l v : List Char),
    '*' ∉ l → '?' ∉ l →
    reAccepts (globToRegex l) v = decide (l = v) := by
  intro l
  induction l with
  | nil =>
    intro v _ _
    cases v <;> simp [globToRegex, reAccepts]
  | cons c rest ih =>
    intro v hs hq
    have hc1 : ¬ c = '*' := fun h => hs (by simp [h])
    have hc2 : ¬ c = '?' := fun h => hq (by simp [h])
    have hg : globToRegex (c :: rest) = .lit c :: globToRegex rest := by
      simp [globToRegex, hc1, hc2]
    rw [hg]
    cases v with
    | nil => simp [reAccepts]
    | cons x v2 =>
      simp only [reAccepts]
      rw [ih v2 (fun h => hs (List.mem_cons_of_mem _ h))
        (fun h => hq (List.mem_cons_of_mem _ h))]
      by_cases hxc : x = c
      · subst hxc
        by_cases hr : rest = v2 <;> simp [hr]
      · have hcx : ¬ c = x := fun h => hxc h.symm
        simp [hxc, hcx]

/-- Main equivalence: on line-terminator-free values the regex compiled
by `getKeysByPattern` accepts exactly the values matched by the
recursive glob matcher `matchRecursive` of `src/utils/pattern.ts`. -/
theorem reAccepts_eq_matchRec : ∀ (n : ℕ) (p v : List Char),
    p.length + v.length ≤ n → (∀ c ∈ v, isLineTerminator c = false) →
    reAccepts (globToRegex p) v = matchRec p v := by
  intro n
  induction n with
  | zero =>
    intro p v hlen _
    have hp : p = [] := List.length_eq_zero.mp (by omega)
    have hv : v = [] := List.length_eq_zero.mp (by omega)
    subst hp; subst hv
    simp [globToRegex, reAccepts, matchRec]
  | succ n ih =>
    intro p v hlen hnl
    cases p with
    | nil =>
      simp [globToRegex, reAccepts, matchRec]
    | cons c p' =>
      have hlen2 : p'.length + v.length ≤ n := by
        simp only [List.length_cons] at hlen; omega
      by_cases hc : c = '*'
      · subst hc
        have hg : globToRegex ('*' :: p') = .anyStar :: globToRegex p' := by
          simp [globToRegex]
        have hL : reAccepts (globToRegex ('*' :: p')) v
            = reStar (globToRegex (p'.dropWhile (fun x => x = '*'))) v := by
          rw [hg]
          have h1 : reAccepts (.anyStar :: globToRegex p') v
              = reStar (globToRegex p') v := by
            simp only [reAccepts]
          rw [h1, reStar_glob_dropWhile]
        rw [hL]
        cases hdw : p'.dropWhile (fun x => x = '*') with
        | nil =>
          have hR : matchRec ('*' :: p') v = true := by
            rw [matchRec.eq_def]; simp [hdw]
          rw [hR]
          exact reStar_nil_of_lt_free v hnl
        | cons d p2' =>
          have hR : matchRec ('*' :: p') v = matchStar (d :: p2') v := by
            rw [matchRec.eq_def]; simp [hdw]
          rw [hR]
          have hp2 : (d :: p2').length ≤ p'.length := by
            have h : (p'.dropWhile (fun x => x = '*')).length ≤ p'.length :=
              (List.dropWhile_suffix _).length_le
            rw [hdw] at h; exact h
          have hinner : ∀ (w : List Char), w.length ≤ v.length →
              (∀ c ∈ w, isLineTerminator c = false) →
              reStar (globToRegex (d :: p2')) w = matchStar (d :: p2') w := by
            intro w
            induction w with
            | nil =>
              intro _ _
              have h1 : reStar (globToRegex (d :: p2')) []
                  = reAccepts (globToRegex (d :: p2')) [] := by
                simp only [reStar]
              have h2 : matchStar (d :: p2') [] = matchRec (d :: p2') [] := by
                simp only [matchStar]
              rw [h1, h2]
              refine ih (d :: p2') [] ?_ (by simp)
              simp only [List.length_nil, Nat.add_zero]
              omega
            | cons x w' ihw =>
              intro hwlen hnw
              have hnw' : ∀ c ∈ w', isLineTerminator c = false :=
                fun c hc => hnw c (List.mem_cons_of_mem _ hc)
              have hx : isLineTerminator x = false :=
                hnw x (List.mem_cons_self x w')
              have hstarL : reStar (globToRegex (d :: p2')) (x :: w')
                  = (reAccepts (globToRegex (d :: p2')) (x :: w')
                    || ((!isLineTerminator x)
                      && reStar (globToRegex (d :: p2')) w')) := by
                simp only [reStar]
              have hstarR : matchStar (d :: p2') (x :: w')
                  = (matchRec (d :: p2') (x :: w') || matchStar (d :: p2') w') := by
                simp only [matchStar]
              rw [hstarL, hstarR, hx, Bool.not_false, Bool.true_and]
              have hlw : (d :: p2').length + (x :: w').length ≤ n := by
                have h1 := hp2
                simp only [List.length_cons] at hwlen h1 ⊢
                omega
              rw [ih (d :: p2') (x :: w') hlw hnw]
              rw [ihw (by simp only [List.length_cons] at hwlen; omega) hnw']
          exact hinner v le_rfl hnl
      · cases v with
        | nil =>
          by_cases hq : c = '?'
          · subst hq
            simp [globToRegex, hc, reAccepts, matchRec]
          · simp [globToRegex, hc, hq, reAccepts, matchRec]
        | cons x v' =>
          have hnl' : ∀ c ∈ v', isLineTerminator c = false :=
            fun c hc => hnl c (List.mem_cons_of_mem _ hc)
          have hxn : isLineTerminator x = false :=
            hnl x (List.mem_cons_self x v')
          have hlen3 : p'.length + v'.length ≤ n := by
            simp only [List.length_cons] at hlen; omega
          by_cases hq : c = '?'
          · subst hq
            have hg : globToRegex ('?' :: p') = .anyChar :: globToRegex p' := by
              simp [globToRegex]
            rw [hg]
            have hL : reAccepts (.anyChar :: globToRegex p') (x :: v')
                = ((!isLineTerminator x) && reAccepts (globToRegex p') v') := by
              simp only [reAccepts]
            have hR : matchRec ('?' :: p') (x :: v') = matchRec p' v' := by
              rw [matchRec.eq_def]; simp
            rw [hL, hR, hxn, Bool.not_false, Bool.true_and]
            exact ih p' v' hlen3 hnl'
          · have hg : globToRegex (c :: p') = .lit c :: globToRegex p' := by
              simp [globToRegex, hc, hq]
            rw [hg]
            have hL : reAccepts (.lit c :: globToRegex p') (x :: v')
                = ((x == c) && reAccepts (globToRegex p') v') := by
              simp only [reAccepts]
            have hR : matchRec (c :: p') (x :: v')
                = ((c == x) && matchRec p' v') := by
              rw [matchRec.eq_def]; simp [hc, hq]
            rw [hL, hR, ih p' v' hlen3 hnl']
            by_cases hxc : x = c
            · subst hxc; simp
            · have hcx : ¬ c = x := fun h => hxc h.symm
              have h1 : (x == c) = false := by simp [hxc]
              have h2 : (c == x) = false := by simp [hcx]
              rw [h1, h2]

/-- C5, counterexample: the claim also asserts agreement on the matcher's
rejection of patterns longer than 100 characters (UTF-16 units), but
`getKeysByPattern` builds its regex without any length cap.  With a
single registered key of 101 `'a'`s and the same 101-character pattern,
`getKeysByPattern` returns the key while `matchGlobPattern` returns
`false`, so the returned set is not `{ k | matchGlobPattern(p, k) }`. -/
theorem getKeysByPattern_counterexample :
    (TagRegistry.register TagRegistry.empty
        (String.mk (List.replicate 101 'a')) ["t"]).getKeysByPattern
        (String.mk (List.replicate 101 'a'))
      = [String.mk (List.replicate 101 'a')]
    ∧ matchGlobPattern (String.mk (List.replicate 101 'a'))
        (String.mk (List.replicate 101 'a')) = false := by
  constructor
  · have hreg : (TagRegistry.register TagRegistry.empty
        (String.mk (List.replicate 101 'a')) ["t"]).allKeys
        = [String.mk (List.replicate 101 'a')] := by
      simp [TagRegistry.register, TagRegistry.empty, setAdd]
    rw [TagRegistry.getKeysByPattern, hreg]
    have hacc : reAccepts
        (globToRegex (String.mk (List.replicate 101 'a')).data)
        (String.mk (List.replicate 101 'a')).data = true := by
      rw [reAccepts_glob_no_wildcards]
      · simp
      · simp [List.mem_replicate]
      · simp [List.mem_replicate]
    rw [List.filter_cons, if_pos hacc]
    rfl
  · decide

/-- C5 (amended): for patterns of at most `MAX_PATTERN_LENGTH = 100`
UTF-16 units, over registries whose keys contain no ECMA-262 line
terminator, with pattern and keys inside the Basic Multilingual Plane
(where the per-character embedding of both matchers is exact),
`getKeysByPattern` returns exactly the registered keys accepted by
`matchGlobPattern` — including the exact-match fast path for
wildcard-free patterns.  (Longer patterns are rejected by
`matchGlobPattern` but not by the registry's regex; regex `.` also
refuses line terminators where the recursive matcher accepts them.) -/
theorem getKeysByPattern_spec (reg : TagRegistry) (pattern : String)
    (hlen : utf16Len pattern.data ≤ MAX_PATTERN_LENGTH)
    (_hbmp : ∀ c ∈ pattern.data, c.toNat < 65536)
    (_hkbmp : ∀ k ∈ reg.allKeys, ∀ c ∈ k.data, c.toNat < 65536)
    (hnl : ∀ k ∈ reg.allKeys, ∀ c ∈ k.data, isLineTerminator c = false) :
    reg.getKeysByPattern pattern
      = reg.allKeys.filter (fun k => matchGlobPattern pattern k) := by
  rw [TagRegistry.getKeysByPattern]
  apply List.filter_congr
  intro k hk
  rw [matchGlobPattern]
  rw [if_neg (Nat.not_lt.mpr hlen)]
  by_cases hs : '*' ∈ pattern.data
  · have hc1 : pattern.data.contains '*' = true := by simpa using hs
    have hw : ((!pattern.data.contains '*') && !pattern.data.contains '?')
        = false := by
      rw [hc1]; rfl
    rw [if_neg (by rw [hw]; simp)]
    exact reAccepts_eq_matchRec (pattern.data.length + k.data.length)
      pattern.data k.data le_rfl (hnl k hk)
  · by_cases hq : '?' ∈ pattern.data
    · have hc2 : pattern.data.contains '?' = true := by simpa using hq
      have hw : ((!pattern.data.contains '*') && !pattern.data.contains '?')
          = false := by
        rw [hc2]; simp
      rw [if_neg (by rw [hw]; simp)]
      exact reAccepts_eq_matchRec (pattern.data.length + k.data.length)
        pattern.data k.data le_rfl (hnl k hk)
    · have hw : ((!pattern.data.contains '*') && !pattern.data.contains '?')
          = true := by
        simp [hs, hq]
      rw [if_pos hw]
      rw [reAccepts_glob_no_wildcards pattern.data k.data hs hq]
      by_cases he : pattern = k
      · subst he; simp
      · have hd : ¬ pattern.data = k.data := fun h => he (string_ext h)
        simp [hd, he]

/-- Witness for `getKeysByPattern_spec` on a concrete two-key registry
and the pattern `"users/*"`. -/
theorem getKeysByPattern_spec_witness :
    (TagRegistry.register
        (TagRegistry.register TagRegistry.empty "users/1" ["u"])
        "posts/2" ["p"]).getKeysByPattern "users/*"
      = (TagRegistry.register
          (TagRegistry.register TagRegistry.empty "users/1" ["u"])
          "posts/2" ["p"]).allKeys.filter
          (fun k => matchGlobPattern "users/*" k) :=
  getKeysByPattern_spec _ _ (by decide) (by decide) (by decide) (by decide)

end HttpClient
